import Mathlib

/-!
# Verification of the OGDF `FullComponentStore`

A shallow embedding of `src/include/ogdf/internal/steinertree/FullComponentStore.h`
(classes `FullComponentStore`, `FullComponentWithExtraStore`,
`FullComponentWithLossStore`).

Modelling conventions:
* OGDF `node`s and `edge`s are identified by natural-number ids, allocated from
  monotone counters, mirroring `Graph::newNode` / `Graph::newEdge`.
* An `adjEntry` is a pair (edge id, side): `adjSource = (e, true)`,
  `adjTarget = (e, false)`; `twin` flips the side.
* A node's adjacency list is derived from the edge list in creation order:
  OGDF appends the source entry of every new edge to the source node's list
  and the target entry to the target node's list, so the adjacency list of `v`
  is the sublist of entries at `v` of all live edges in creation order; edge
  deletion preserves the relative order (a list `filter`).
* `NodeArray` maps are functions `Nat → Option Nat`; a `none` lookup where the
  C++ code would dereference the entry models a failure of the operation.
* C++ while-loops without a structural termination argument are given explicit
  fuel; exhausting the fuel yields `none`, as does an `OGDF_ASSERT`-style
  failure (bounded-stack overflow, out-of-range id, null dereference).
* `OGDF_ASSERT(isTree(comp))` in `insert` is a debug assertion whose check
  lives outside `src/`; it is not modelled as a runtime test, and tree-shape
  preconditions appear as hypotheses of the theorems that need them.
-/

namespace FullComponentStore

/-- A weighted edge of the compact shared graph (`EdgeWeightedGraph<T>`):
source node id, target node id, weight. -/
structure EWEdge (T : Type) where
  src : Nat
  tgt : Nat
  w : T
deriving DecidableEq, Repr

/-- The compact shared graph `m_graph`.  `edges` is the list of live edges in
creation order, keyed by edge id; `nodes` the list of live node ids.  `nextNode`
and `nextEdge` are the allocation counters. -/
structure EWGraph (T : Type) where
  nextNode : Nat := 0
  nodes : List Nat := []
  nextEdge : Nat := 0
  edges : List (Nat × EWEdge T) := []
deriving DecidableEq, Repr

/-- A directed edge-endpoint handle (`adjEntry`): `atSrc = true` is the
entry at the edge's source (`adjSource`), `atSrc = false` the entry at the
target (`adjTarget`). -/
structure AdjEntry where
  edgeId : Nat
  atSrc : Bool
deriving DecidableEq, Repr

/-- `adjEntry::twin()`: the entry of the same edge at the opposite endpoint. -/
def AdjEntry.twin (a : AdjEntry) : AdjEntry := ⟨a.edgeId, !a.atSrc⟩

/-- Look up a live edge by id. -/
def findE {T : Type} (es : List (Nat × EWEdge T)) (i : Nat) : Option (EWEdge T) :=
  (es.find? (fun p => p.1 = i)).map (·.2)

/-- `adjEntry::theNode()`: the node the handle sits on. -/
def theNodeOf {T : Type} (es : List (Nat × EWEdge T)) (a : AdjEntry) : Option Nat :=
  (findE es a.edgeId).map (fun e => if a.atSrc then e.src else e.tgt)

/-- `adjEntry::twinNode()`: the node at the opposite end of the handle's edge. -/
def twinNodeOf {T : Type} (es : List (Nat × EWEdge T)) (a : AdjEntry) : Option Nat :=
  theNodeOf es a.twin

/-- The weight of the edge under a handle (`m_graph.weight(adj->theEdge())`),
defaulting to `0` for a dangling handle (never reached on live handles). -/
def weightOf {T : Type} [Zero T] (es : List (Nat × EWEdge T)) (a : AdjEntry) : T :=
  ((findE es a.edgeId).map (·.w)).getD 0

/-- The adjacency list of node `v` (`v->adjEntries`), derived from the live
edge list in creation order; a self-loop contributes its source entry before
its target entry, as in OGDF. -/
def adjList {T : Type} (es : List (Nat × EWEdge T)) (v : Nat) : List AdjEntry :=
  es.flatMap (fun p =>
    (if p.2.src = v then [⟨p.1, true⟩] else []) ++
    (if p.2.tgt = v then [⟨p.1, false⟩] else []))

/-- `Graph::newNode`. -/
def newNode {T : Type} (g : EWGraph T) : EWGraph T × Nat :=
  ({ g with nextNode := g.nextNode + 1, nodes := g.nodes ++ [g.nextNode] }, g.nextNode)

/-- `EdgeWeightedGraph::newEdge`. -/
def newEdge {T : Type} (g : EWGraph T) (u v : Nat) (w : T) : EWGraph T × Nat :=
  ({ g with nextEdge := g.nextEdge + 1, edges := g.edges ++ [(g.nextEdge, ⟨u, v, w⟩)] },
   g.nextEdge)

/-- `Graph::delEdge`. -/
def delEdge {T : Type} (g : EWGraph T) (i : Nat) : EWGraph T :=
  { g with edges := g.edges.filter (fun p => p.1 ≠ i) }

/-- `Graph::delNode`: removes the node and all incident edges. -/
def delNode {T : Type} (g : EWGraph T) (v : Nat) : EWGraph T :=
  { g with nodes := g.nodes.erase v,
           edges := g.edges.filter (fun p => p.2.src ≠ v ∧ p.2.tgt ≠ v) }

/-- The per-component metadata record (`Metadata<ExtraDataType>`): start
handle (null until a terminal-incident edge is copied), terminals sorted by
node index, accumulated cost, and the extra payload. -/
structure Metadata (T E : Type) where
  start : Option AdjEntry
  terminals : List Nat
  cost : T
  extra : E
deriving DecidableEq, Repr

/-- The read-only original Steiner instance bound at construction:
the terminal list `m_terminals` and the incidence flags `m_isTerminal`. -/
structure Instance where
  terminals : List Nat
  isTerminal : Nat → Bool

/-- The full component store: original instance, compact shared graph,
the two node mappings `m_nodeCopy` / `m_nodeOrig`, and the metadata table
`m_components`. -/
structure Store (T E : Type) where
  inst : Instance
  graph : EWGraph T
  nodeCopy : Nat → Option Nat
  nodeOrig : Nat → Option Nat
  components : List (Metadata T E)

/-- Pointwise update of a `NodeArray`-style map. -/
def upd (f : Nat → Option Nat) (x : Nat) (y : Option Nat) : Nat → Option Nat :=
  fun z => if z = x then y else f z

/-- The constructor loop: one compact node per original terminal, recording
the bidirectional mapping. -/
def initTerminals {T : Type} :
    List Nat → EWGraph T → (Nat → Option Nat) → (Nat → Option Nat) →
    EWGraph T × (Nat → Option Nat) × (Nat → Option Nat)
  | [], g, nc, no => (g, nc, no)
  | v :: rest, g, nc, no =>
      let p := newNode g
      initTerminals rest p.1 (upd nc v (some p.2)) (upd no p.2 (some v))

/-- `FullComponentStore::FullComponentStore`: starts with an empty metadata
table and a compact graph holding exactly one node per terminal. -/
def mkStore (T E : Type) (inst : Instance) : Store T E :=
  let r := initTerminals inst.terminals ({} : EWGraph T) (fun _ => none) (fun _ => none)
  { inst := inst, graph := r.1, nodeCopy := r.2.1, nodeOrig := r.2.2, components := [] }

/-- The input tree handed to `insert` (`EdgeWeightedGraphCopy<T>`), reduced to
what `insert` reads from it: the original node of every node (in `comp.nodes`
order) and, for every edge in `comp.edges` order, the original endpoints and
the weight. -/
structure CompTree (T : Type) where
  nodes : List Nat
  edges : List (Nat × Nat × T)

/-- The node loop of `insert`: fresh non-terminal compact nodes are allocated
(and remembered in `tempUse`), already-mapped originals are collected as
terminals.  Returns (graph, nodeCopy, nodeOrig, tempUse, raw terminal list). -/
def addNodes {T : Type} :
    List Nat → EWGraph T → (Nat → Option Nat) → (Nat → Option Nat) →
    List Nat → List Nat →
    EWGraph T × (Nat → Option Nat) × (Nat → Option Nat) × List Nat × List Nat
  | [], g, nc, no, tu, ts => (g, nc, no, tu, ts)
  | vO :: rest, g, nc, no, tu, ts =>
      match nc vO with
      | none =>
          let p := newNode g
          addNodes rest p.1 (upd nc vO (some p.2)) (upd no p.2 (some vO))
            (tu ++ [vO]) ts
      | some _ => addNodes rest g nc no tu (ts ++ [vO])

/-- The edge loop of `insert`: copies every edge into the compact graph,
accumulates the cost, and (re)sets the start handle on every terminal-incident
edge — preferring the source side, as the `if`/`else if` in the source does.
Fails (`none`) when an endpoint has no compact counterpart (null node to
`newEdge`). -/
def addEdges {T : Type} [Add T] (isT : Nat → Bool) (nc : Nat → Option Nat) :
    List (Nat × Nat × T) → EWGraph T → T → Option AdjEntry →
    Option (EWGraph T × T × Option AdjEntry)
  | [], g, c, st => some (g, c, st)
  | (uO, vO, w) :: rest, g, c, st =>
      match nc uO, nc vO with
      | some uC, some vC =>
          let eid := g.nextEdge
          let g' := (newEdge g uC vC w).1
          let st' := if isT uO then some (⟨eid, true⟩ : AdjEntry)
                     else if isT vO then some (⟨eid, false⟩ : AdjEntry)
                     else st
          addEdges isT nc rest g' (c + w) st'
      | _, _ => none

/-- The cleanup loop at the end of `insert`: reset the transient `m_nodeCopy`
entries created for this call's non-terminals. -/
def cleanup (nc : Nat → Option Nat) : List Nat → (Nat → Option Nat)
  | [] => nc
  | vO :: rest => cleanup (upd nc vO none) rest

/-- `FullComponentStore::insert`.  `d` is the default-constructed extra
payload of the new record.  The `OGDF_ASSERT(!comp.empty())` is modelled as a
failure on an empty node list; `OGDF_ASSERT(isTree(comp))` is a debug check
whose implementation lives outside `src/` and is left to theorem hypotheses. -/
def insert {T E : Type} [Zero T] [Add T] (s : Store T E) (d : E) (τ : CompTree T) :
    Option (Store T E) :=
  if τ.nodes.isEmpty then none
  else
    let r1 := addNodes τ.nodes s.graph s.nodeCopy s.nodeOrig [] []
    let ts := (r1.2.2.2.2).insertionSort (· ≤ ·)
    match addEdges s.inst.isTerminal r1.2.1 τ.edges r1.1 0 none with
    | none => none
    | some r2 =>
        some { s with
          graph := r2.1,
          nodeCopy := cleanup r1.2.1 r1.2.2.2.1,
          nodeOrig := r1.2.2.1,
          components := s.components ++ [⟨r2.2.2, ts, r2.2.1, d⟩] }

/-- The metadata part of `FullComponentStore::remove`: pop the last record if
`id` is the last index, otherwise overwrite slot `id` with the popped last
record. -/
def removeMeta {α : Type} (comps : List α) (id : Nat) : List α :=
  if comps.length = id + 1 then comps.dropLast
  else
    match comps.getLast? with
    | some last => comps.dropLast.set id last
    | none => []

/-- `isTerminal(v)` for a compact node: `m_isTerminal[m_nodeOrig[v]]`; a node
without an original mapping makes the lookup fail. -/
def isTermNodeOf (isT : Nat → Bool) (no : Nat → Option Nat) (v : Nat) : Option Bool :=
  (no v).map isT

/-- The graph-surgery loop of `remove` (the `while (!stack.empty())` walk):
pop a node; a terminal is dropped, a non-terminal pushes all its current
neighbours and is deleted together with its incident edges.  `cap` is the
`BoundedStack` capacity: exceeding it (assertion failure in the source) yields
`none`, as does running out of fuel or an unmapped node. -/
def removeLoop {T : Type} (isT : Nat → Bool) (no : Nat → Option Nat) (cap : Nat) :
    Nat → EWGraph T → List Nat → Option (EWGraph T)
  | _, g, [] => some g
  | 0, _, _ :: _ => none
  | fuel + 1, g, v :: rest =>
      match isTermNodeOf isT no v with
      | none => none
      | some true => removeLoop isT no cap fuel g rest
      | some false =>
          match (adjList g.edges v).mapM (twinNodeOf g.edges) with
          | none => none
          | some pushed =>
              if cap < rest.length + pushed.length then none
              else removeLoop isT no cap fuel (delNode g v) (pushed.reverse ++ rest)

/-- `FullComponentStore::remove`: graph surgery (a 2-terminal component loses
just its edge, larger ones are walked with a stack of capacity
`2·|terminals| − 3`), then the swap-and-pop on the metadata table. -/
def remove {T E : Type} (s : Store T E) (id : Nat) (fuel : Nat) : Option (Store T E) :=
  match s.components.get? id with
  | none => none
  | some md =>
      match md.start with
      | none => none
      | some a =>
          let gOpt :=
            if md.terminals.length = 2 then
              some (delEdge s.graph a.edgeId)
            else
              let cap := 2 * md.terminals.length - 3
              match twinNodeOf s.graph.edges a with
              | none => none
              | some v0 =>
                  if cap < 1 then none
                  else removeLoop s.inst.isTerminal s.nodeOrig cap fuel
                    (delEdge s.graph a.edgeId) [v0]
          gOpt.map (fun g' =>
            { s with graph := g', components := removeMeta s.components id })

/-- `FullComponentStore::size`. -/
def size {T E : Type} (s : Store T E) : Int := s.components.length

/-- `FullComponentStore::isEmpty`. -/
def isEmptyQ {T E : Type} (s : Store T E) : Bool := s.components.isEmpty

/-- `terminals(id)`, guarded by `OGDF_ASSERT(id >= 0)` and
`OGDF_ASSERT(id < m_components.size())`. -/
def terminalsQ {T E : Type} (s : Store T E) (id : Int) : Option (List Nat) :=
  if 0 ≤ id ∧ id < size s then (s.components.get? id.toNat).map (·.terminals)
  else none

/-- `isTerminal(id, t)`: bounds-checked linear search of the sorted terminal
list (`linearSearch(t) != -1` is membership). -/
def isTerminalQ {T E : Type} (s : Store T E) (id : Int) (t : Nat) : Option Bool :=
  if 0 ≤ id ∧ id < size s then (s.components.get? id.toNat).map (·.terminals.contains t)
  else none

/-- `cost(i)`, bounds-checked. -/
def costQ {T E : Type} (s : Store T E) (id : Int) : Option T :=
  if 0 ≤ id ∧ id < size s then (s.components.get? id.toNat).map (·.cost)
  else none

/-- `start(i)`, bounds-checked; the stored handle itself may be null for a
degenerate record. -/
def startQ {T E : Type} (s : Store T E) (id : Int) : Option (Option AdjEntry) :=
  if 0 ≤ id ∧ id < size s then (s.components.get? id.toNat).map (·.start)
  else none

/-- The cyclic-successor sweep `for (adj = back->cyclicSucc(); adj != back;
adj = adj->cyclicSucc())`: all entries of the adjacency list after the first
occurrence of `x`, then those before it; `none` if `x` is not in the list. -/
def rotateAfterAux (x : AdjEntry) : List AdjEntry → List AdjEntry → Option (List AdjEntry)
  | [], _ => none
  | y :: ys, pre => if y = x then some (ys ++ pre.reverse) else rotateAfterAux x ys (y :: pre)

/-- See `rotateAfterAux`. -/
def rotateAfter (l : List AdjEntry) (x : AdjEntry) : Option (List AdjEntry) :=
  rotateAfterAux x l []

/-- The iterative DFS of `foreachAdjEntry` for components with at least three
terminals: pop a handle, report its twin, and continue past non-terminal
nodes by pushing the remaining adjacency entries in cyclic order.  `cap` is
the `BoundedStack` capacity `2·size − 2`; exceeding it, running out of fuel,
or hitting a dangling handle yields `none`.  Returns the reported handles in
visit order. -/
def dfsLoop {T : Type} (isT : Nat → Bool) (no : Nat → Option Nat)
    (es : List (Nat × EWEdge T)) (cap : Nat) :
    Nat → List AdjEntry → List AdjEntry → Option (List AdjEntry)
  | _, [], acc => some acc.reverse
  | 0, _ :: _, _ => none
  | fuel + 1, a :: rest, acc =>
      let back := a.twin
      match theNodeOf es back with
      | none => none
      | some wnode =>
          match isTermNodeOf isT no wnode with
          | none => none
          | some true => dfsLoop isT no es cap fuel rest (back :: acc)
          | some false =>
              match rotateAfter (adjList es wnode) back with
              | none => none
              | some pushed =>
                  if cap < rest.length + pushed.length then none
                  else dfsLoop isT no es cap fuel (pushed.reverse ++ rest) (back :: acc)

/-- `foreachAdjEntry(i, f)` with the callback reified as the list of handles
passed to `f`, in call order.  A 2-terminal component reports only the twin of
the start handle; otherwise the DFS runs with stack capacity `2·size − 2`. -/
def foreachAdjEntryCore {T E : Type} (s : Store T E) (i : Nat) (fuel : Nat) :
    Option (List AdjEntry) :=
  match s.components.get? i with
  | none => none
  | some md =>
      match md.start with
      | none => none
      | some st =>
          if md.terminals.length = 2 then some [st.twin]
          else
            let cap := 2 * md.terminals.length - 2
            if cap < 1 then none
            else dfsLoop s.inst.isTerminal s.nodeOrig s.graph.edges cap fuel [st] []

/-- Modelled from the spec: the `ArrayBuffer::operator[]` bounds assertion
guarding `m_components[i]` — the `ArrayBuffer` implementation is not under
`src/`; the spec states that all identifier-taking operations are
bounds-checked against the current size.  The traversal entry point
`foreachAdjEntry` therefore rejects out-of-range identifiers before reading
the record. -/
def foreachAdjEntryVisits {T E : Type} (s : Store T E) (id : Int) (fuel : Nat) :
    Option (List AdjEntry) :=
  if 0 ≤ id ∧ id < size s then foreachAdjEntryCore s id.toNat fuel else none

/-- `original(v)`: compact-to-original lookup, failing (assertion) on a node
without a mapping. -/
def originalQ {T E : Type} (s : Store T E) (v : Nat) : Option Nat := s.nodeOrig v

/-- `foreachNode(id, f)` (the `pred`-less overload): the original node of the
start handle's node, then the original node of every handle reported by
`foreachAdjEntry`. -/
def foreachNodeVisits {T E : Type} (s : Store T E) (id : Int) (fuel : Nat) :
    Option (List Nat) := do
  let stOpt ← startQ s id
  let st ← stOpt
  let v ← theNodeOf s.graph.edges st
  let vO ← originalQ s v
  let visits ← foreachAdjEntryVisits s id fuel
  let rest ← visits.mapM (fun a => do
    let u ← theNodeOf s.graph.edges a
    originalQ s u)
  some (vO :: rest)

/-- The opposite endpoint of an original-graph edge, given as its endpoint
pair. -/
def oppositeOf (e : Nat × Nat) (v : Nat) : Nat := if e.1 = v then e.2 else e.1

/-- The inner expansion loop of `foreachEdge`: follow `pred[u][·]` from `v`
until the entry is null, reporting each traversed original edge.  Fueled: a
cyclic `pred` table would not terminate. -/
def predWalk (pr : Nat → Nat → Option (Nat × Nat)) (u : Nat) :
    Nat → Nat → List (Nat × Nat) → Option (List (Nat × Nat))
  | 0, _, _ => none
  | fuel + 1, v, acc =>
      match pr u v with
      | none => some acc.reverse
      | some e => predWalk pr u fuel (oppositeOf e v) (e :: acc)

/-- `foreachEdge(id, pred, f)`: expand every skeleton edge reported by
`foreachAdjEntry` into the original edges along the `pred` path. -/
def foreachEdgeVisits {T E : Type} (s : Store T E)
    (pr : Nat → Nat → Option (Nat × Nat)) (id : Int) (fuel : Nat) :
    Option (List (Nat × Nat)) := do
  let visits ← foreachAdjEntryVisits s id fuel
  let chunks ← visits.mapM (fun back => do
    let un ← twinNodeOf s.graph.edges back
    let u ← originalQ s un
    let vn ← theNodeOf s.graph.edges back
    let v ← originalQ s vn
    predWalk pr u fuel v [])
  some chunks.flatten

/-- The loss payload (`LossMetadata<T>`): the loss value and the list of
non-loss (bridge) edges, stored by edge id. -/
structure LossMetadata (T : Type) where
  loss : T
  bridges : List Nat
deriving DecidableEq, Repr

/-- `findLossTerminal`: walk the MST predecessor chain from a Steiner node to
the first terminal, memoizing into `m_lossTerminal`.  Fueled: a cyclic `pred`
chain would not terminate. -/
def findLossTerminal {T : Type} (es : List (Nat × EWEdge T)) (pr : Nat → Option Nat) :
    Nat → Nat → (Nat → Option Nat) → Option ((Nat → Option Nat) × Option Nat)
  | 0, _, _ => none
  | fuel + 1, u, lt =>
      match lt u with
      | some t => some (lt, some t)
      | none =>
          match pr u with
          | none => some (lt, none)
          | some eid =>
              match findE es eid with
              | none => none
              | some e =>
                  let v := if e.src = u then e.tgt else e.src
                  match findLossTerminal es pr fuel v lt with
                  | none => none
                  | some r => some (upd r.1 u r.2, r.2)

/-- The zero-edge loop at the head of `computeAllLosses`: set the
`m_lossTerminal` mapping of every terminal's compact node and connect the
root's compact node to every other terminal copy with a zero-weight edge,
collecting the temporary edge ids. -/
def addZeroEdges {T : Type} [Zero T] (nc : Nat → Option Nat) (sC : Nat) :
    List Nat → EWGraph T → (Nat → Option Nat) → List Nat →
    Option (EWGraph T × (Nat → Option Nat) × List Nat)
  | [], g, lt, zs => some (g, lt, zs)
  | v :: rest, g, lt, zs =>
      match nc v with
      | none => none
      | some vC =>
          let eid := g.nextEdge
          addZeroEdges nc sC rest (newEdge g sC vC 0).1 (upd lt vC (some v)) (zs ++ [eid])

/-- The per-component classification body of `computeAllLosses`: fold the
handles reported by `foreachAdjEntry` — a non-MST edge is appended to the
bridge list (and its endpoints resolved through `findLossTerminal`), an MST
edge adds its weight to the loss. -/
def classifyVisits {T : Type} [Zero T] [Add T] (es : List (Nat × EWEdge T))
    (pr : Nat → Option Nat) (isLossEdge : Nat → Bool) (fuel : Nat) :
    List AdjEntry → LossMetadata T → (Nat → Option Nat) →
    Option (LossMetadata T × (Nat → Option Nat))
  | [], x, lt => some (x, lt)
  | a :: rest, x, lt =>
      let e := a.edgeId
      if isLossEdge e then
        classifyVisits es pr isLossEdge fuel rest
          { x with loss := x.loss + weightOf es a } lt
      else
        match findE es e with
        | none => none
        | some ed =>
            match findLossTerminal es pr fuel ed.src lt with
            | none => none
            | some r1 =>
                match findLossTerminal es pr fuel ed.tgt r1.1 with
                | none => none
                | some r2 =>
                    classifyVisits es pr isLossEdge fuel rest
                      { x with bridges := x.bridges ++ [e] } r2.1

/-- The per-id loop of `computeAllLosses` over identifiers `0 ≤ id < size`. -/
def lossLoop {T : Type} [Zero T] [Add T] (s : Store T (LossMetadata T))
    (pr : Nat → Option Nat) (isLossEdge : Nat → Bool) (fuel : Nat) :
    List Nat → List (Metadata T (LossMetadata T)) → (Nat → Option Nat) →
    Option (List (Metadata T (LossMetadata T)) × (Nat → Option Nat))
  | [], comps, lt => some (comps, lt)
  | id :: rest, comps, lt =>
      match foreachAdjEntryCore { s with components := comps } id fuel with
      | none => none
      | some visits =>
          match comps.get? id with
          | none => none
          | some md =>
              match classifyVisits s.graph.edges pr isLossEdge fuel visits md.extra lt with
              | none => none
              | some r =>
                  lossLoop s pr isLossEdge fuel rest
                    (comps.set id { md with extra := r.1 }) r.2

/-- `FullComponentWithLossStore::computeAllLosses`.  The minimum-spanning-tree
computation `computeMinST` is an external primitive (per the spec, not part of
the core); it is passed in as `mst`, mapping the root's compact node and the
graph (with the temporary zero edges) to the predecessor-edge table and the
per-edge tree flag.  Returns the updated store together with the
`m_lossTerminal` map. -/
def computeAllLosses {T : Type} [Zero T] [Add T] (s : Store T (LossMetadata T))
    (mst : Nat → EWGraph T → (Nat → Option Nat) × (Nat → Bool)) (fuel : Nat) :
    Option (Store T (LossMetadata T) × (Nat → Option Nat)) :=
  match s.inst.terminals with
  | [] => none
  | t0 :: restT =>
      match s.nodeCopy t0 with
      | none => none
      | some sC =>
          let lt0 := upd (fun _ => none) sC (some t0)
          match addZeroEdges s.nodeCopy sC restT s.graph lt0 [] with
          | none => none
          | some r1 =>
              let p := mst sC r1.1
              let g2 := r1.2.2.foldl (fun g eid => delEdge g eid) r1.1
              let s2 := { s with graph := g2 }
              match lossLoop s2 p.1 p.2 fuel (List.range s.components.length)
                  s2.components r1.2.1 with
              | none => none
              | some r2 => some ({ s2 with components := r2.1 }, r2.2)

/-- `loss(id)`: the loss value of the component (via `extra(id)`, which is
bounds-checked like the other queries). -/
def lossQ {T : Type} (s : Store T (LossMetadata T)) (id : Int) : Option T :=
  if 0 ≤ id ∧ id < size s then (s.components.get? id.toNat).map (·.extra.loss) else none

/-- `lossBridges(id)`: the list of non-loss edges of the component. -/
def lossBridgesQ {T : Type} (s : Store T (LossMetadata T)) (id : Int) : Option (List Nat) :=
  if 0 ≤ id ∧ id < size s then (s.components.get? id.toNat).map (·.extra.bridges) else none

/-! ## Characterization of the metadata swap-and-pop -/

theorem removeMeta_length {α : Type} {comps : List α} {id : Nat} (hid : id < comps.length) :
    (removeMeta comps id).length = comps.length - 1 := by
  have hne : comps ≠ [] := by
    intro h0
    subst h0
    simp at hid
  unfold removeMeta
  split
  · exact List.length_dropLast comps
  · cases hl : comps.getLast? with
    | none => exact absurd (List.getLast?_eq_none_iff.mp hl) hne
    | some last => simp [List.length_set, List.length_dropLast]

theorem removeMeta_getElem?_ne {α : Type} {comps : List α} {id j : Nat}
    (hj : j < comps.length - 1) (hne : j ≠ id) :
    (removeMeta comps id)[j]? = comps[j]? := by
  have hcne : comps ≠ [] := by
    intro h0
    subst h0
    simp at hj
  unfold removeMeta
  split
  · rw [List.getElem?_dropLast, if_pos hj]
  · cases hl : comps.getLast? with
    | none => exact absurd (List.getLast?_eq_none_iff.mp hl) hcne
    | some last =>
        rw [List.getElem?_set_ne (fun h => hne h.symm), List.getElem?_dropLast, if_pos hj]

theorem removeMeta_getElem?_at {α : Type} {comps : List α} {id : Nat}
    (hid : id + 1 < comps.length) :
    (removeMeta comps id)[id]? = comps.getLast? := by
  have hcne : comps ≠ [] := by
    intro h0
    subst h0
    simp at hid
  unfold removeMeta
  rw [if_neg (by omega)]
  cases hl : comps.getLast? with
  | none => exact absurd (List.getLast?_eq_none_iff.mp hl) hcne
  | some last =>
      simp only
      rw [List.getElem?_set_self (by rw [List.length_dropLast]; omega)]

theorem remove_components_eq {T E : Type} {s s' : Store T E} {id fuel : Nat}
    (h : remove s id fuel = some s') :
    s'.components = removeMeta s.components id := by
  unfold remove at h
  cases hmd : s.components.get? id with
  | none => rw [hmd] at h; simp at h
  | some md =>
      simp only [hmd] at h
      cases hst : md.start with
      | none => simp [hst] at h
      | some a =>
          simp only [hst, Option.map_eq_some'] at h
          obtain ⟨g', _, hs'⟩ := h
          rw [← hs']

/-- Claim C1: for every store and every valid identifier `id`, `remove id`
decreases `size()` by exactly one and keeps identifiers dense in `[0, size)`:
if `id` is the last index the record is dropped, otherwise the record that was
at the last index is afterwards found at slot `id`, and no other component
record changes. -/
theorem remove_swap_pop_dense {T E : Type} (s s' : Store T E) (id fuel : Nat)
    (hid : id < s.components.length)
    (hrem : remove s id fuel = some s') :
    s'.components.length = s.components.length - 1 ∧
    (∀ j, j < s.components.length - 1 → j ≠ id →
        s'.components[j]? = s.components[j]?) ∧
    (id + 1 < s.components.length →
        s'.components[id]? = s.components.getLast?) := by
  have hc := remove_components_eq hrem
  refine ⟨?_, ?_, ?_⟩
  · rw [hc]
    exact removeMeta_length hid
  · intro j hj hne
    rw [hc]
    exact removeMeta_getElem?_ne hj hne
  · intro hlast
    rw [hc]
    exact removeMeta_getElem?_at hlast

/-- A concrete two-component store used by witnesses: terminals 0 and 1, two
stored single-edge components over the two terminal copies. -/
def wStore : Store Nat Unit :=
  { inst := { terminals := [0, 1], isTerminal := fun n => n ≤ 1 },
    graph := { nextNode := 2, nodes := [0, 1], nextEdge := 2,
               edges := [(0, ⟨0, 1, 5⟩), (1, ⟨0, 1, 7⟩)] },
    nodeCopy := fun n => if n ≤ 1 then some n else none,
    nodeOrig := fun n => if n ≤ 1 then some n else none,
    components := [⟨some ⟨0, true⟩, [0, 1], 5, ()⟩, ⟨some ⟨1, true⟩, [0, 1], 7, ()⟩] }

/-- The store `wStore` after `remove 0`: the single edge of component 0 is
deleted and the last record moves into slot 0. -/
def wStoreAfter : Store Nat Unit :=
  { wStore with
    graph := { nextNode := 2, nodes := [0, 1], nextEdge := 2,
               edges := [(1, ⟨0, 1, 7⟩)] },
    components := [⟨some ⟨1, true⟩, [0, 1], 7, ()⟩] }

theorem remove_swap_pop_dense_witness :
    wStoreAfter.components.length = wStore.components.length - 1 ∧
    wStoreAfter.components[0]? = wStore.components.getLast? :=
  ⟨(remove_swap_pop_dense wStore wStoreAfter 0 0 (by decide) (by with_unfolding_all rfl)).1,
   (remove_swap_pop_dense wStore wStoreAfter 0 0 (by decide) (by with_unfolding_all rfl)).2.2
     (by decide)⟩

/-! ## Insertion assigns the next dense identifier -/

theorem insert_components_append {T E : Type} [Zero T] [Add T]
    {s s' : Store T E} {d : E} {τ : CompTree T}
    (h : insert s d τ = some s') :
    ∃ md, s'.components = s.components ++ [md] := by
  unfold insert at h
  by_cases he : τ.nodes.isEmpty
  · rw [if_pos he] at h
    simp at h
  · rw [if_neg he] at h
    simp only at h
    cases har : addEdges s.inst.isTerminal
        (addNodes τ.nodes s.graph s.nodeCopy s.nodeOrig [] []).2.1 τ.edges
        (addNodes τ.nodes s.graph s.nodeCopy s.nodeOrig [] []).1 0 none with
    | none => rw [har] at h; simp at h
    | some r2 =>
        simp only [har] at h
        exact ⟨_, by rw [← Option.some_inj.mp h]⟩

/-- Claim C4: for every store and every non-empty tree input satisfying the
insert precondition, the inserted component receives the dense identifier
equal to the store size before the call: the new record is appended at index
`size()`, all previously stored records keep their identifiers, and the size
grows by one.  (The C++ `insert` itself has return type `void`; the "returned"
identifier of the claim is the index at which the record is pushed.) -/
theorem insert_new_id_eq_old_size {T E : Type} [Zero T] [Add T]
    (s s' : Store T E) (d : E) (τ : CompTree T)
    (hne : ¬τ.nodes.isEmpty)
    (hins : insert s d τ = some s') :
    s'.components.length = s.components.length + 1 ∧
    (∃ md, s'.components[s.components.length]? = some md ∧
        s'.components = s.components ++ [md]) ∧
    (∀ j, j < s.components.length → s'.components[j]? = s.components[j]?) := by
  obtain ⟨md, hmd⟩ := insert_components_append hins
  refine ⟨by simp [hmd], ⟨md, ?_, hmd⟩, ?_⟩
  · rw [hmd, List.getElem?_append_right (le_refl _)]
    simp
  · intro j hj
    rw [hmd, List.getElem?_append, if_pos hj]

/-- A single-edge tree between the two terminals of `wStore`, used by
witnesses. -/
def wTree : CompTree Nat := ⟨[0, 1], [(0, 1, 9)]⟩

/-- The result of inserting `wTree` into `wStore`. -/
def wStoreIns : Store Nat Unit :=
  { wStore with
    graph := { nextNode := 2, nodes := [0, 1], nextEdge := 3,
               edges := [(0, ⟨0, 1, 5⟩), (1, ⟨0, 1, 7⟩), (2, ⟨0, 1, 9⟩)] },
    components := wStore.components ++ [⟨some ⟨2, true⟩, [0, 1], 9, ()⟩] }

theorem insert_new_id_eq_old_size_witness :
    wStoreIns.components.length = wStore.components.length + 1 ∧
    wStoreIns.components[0]? = wStore.components[0]? :=
  ⟨(insert_new_id_eq_old_size wStore wStoreIns () wTree (by decide)
      (by with_unfolding_all rfl)).1,
   (insert_new_id_eq_old_size wStore wStoreIns () wTree (by decide)
      (by with_unfolding_all rfl)).2.2 0 (by decide)⟩

/-! ## Characterization of the insert loops -/

theorem addNodes_graph {T : Type} :
    ∀ (l : List Nat) (g : EWGraph T) (nc no : Nat → Option Nat) (tu ts : List Nat),
      (addNodes l g nc no tu ts).1.edges = g.edges ∧
      (addNodes l g nc no tu ts).1.nextEdge = g.nextEdge := by
  intro l
  induction l with
  | nil => intro g nc no tu ts; exact ⟨rfl, rfl⟩
  | cons vO rest ih =>
      intro g nc no tu ts
      unfold addNodes
      cases nc vO with
      | none => exact ih _ _ _ _ _
      | some u => exact ih _ _ _ _ _

theorem addNodes_nodeCopy_mono {T : Type} :
    ∀ (l : List Nat) (g : EWGraph T) (nc no : Nat → Option Nat) (tu ts : List Nat)
      (x y : Nat), nc x = some y → (addNodes l g nc no tu ts).2.1 x = some y := by
  intro l
  induction l with
  | nil => intro g nc no tu ts x y hx; exact hx
  | cons vO rest ih =>
      intro g nc no tu ts x y hx
      unfold addNodes
      cases hv : nc vO with
      | none =>
          refine ih _ _ _ _ _ _ _ ?_
          unfold upd
          by_cases hxv : x = vO
          · rw [hxv] at hx; rw [hv] at hx; exact absurd hx (by simp)
          · rw [if_neg hxv]; exact hx
      | some u => exact ih _ _ _ _ _ _ _ hx

theorem addNodes_tempUse_was_none {T : Type} :
    ∀ (l : List Nat) (g : EWGraph T) (nc no : Nat → Option Nat) (tu ts : List Nat)
      (x : Nat), x ∈ (addNodes l g nc no tu ts).2.2.2.1 → x ∈ tu ∨ nc x = none := by
  intro l
  induction l with
  | nil => intro g nc no tu ts x hx; exact Or.inl hx
  | cons vO rest ih =>
      intro g nc no tu ts x hx
      unfold addNodes at hx
      cases hv : nc vO with
      | none =>
          rw [hv] at hx
          rcases ih _ _ _ _ _ _ hx with h | h
          · rcases List.mem_append.mp h with h | h
            · exact Or.inl h
            · rcases List.mem_singleton.mp h with rfl
              exact Or.inr hv
          · unfold upd at h
            by_cases hxv : x = vO
            · subst hxv; exact Or.inr hv
            · rw [if_neg hxv] at h; exact Or.inr h
      | some u =>
          rw [hv] at hx
          exact ih _ _ _ _ _ _ hx

theorem addNodes_all_hit {T : Type} :
    ∀ (l : List Nat) (g : EWGraph T) (nc no : Nat → Option Nat) (tu ts : List Nat),
      (∀ x ∈ l, (nc x).isSome) →
      addNodes l g nc no tu ts = (g, nc, no, tu, ts ++ l) := by
  intro l
  induction l with
  | nil => intro g nc no tu ts _; simp [addNodes]
  | cons vO rest ih =>
      intro g nc no tu ts hall
      unfold addNodes
      cases hv : nc vO with
      | none =>
          have := hall vO (List.mem_cons_self vO rest)
          rw [hv] at this
          simp at this
      | some u =>
          rw [ih g nc no tu (ts ++ [vO]) (fun x hx => hall x (List.mem_cons_of_mem _ hx))]
          simp

theorem cleanup_eq (nc : Nat → Option Nat) :
    ∀ (tu : List Nat) (x : Nat),
      cleanup nc tu x = if x ∈ tu then none else nc x := by
  intro tu
  induction tu generalizing nc with
  | nil => intro x; simp [cleanup]
  | cons vO rest ih =>
      intro x
      unfold cleanup
      rw [ih]
      unfold upd
      by_cases hr : x ∈ rest
      · rw [if_pos hr, if_pos (List.mem_cons_of_mem _ hr)]
      · rw [if_neg hr]
        by_cases hv : x = vO
        · rw [if_pos hv, if_pos (by rw [hv]; exact List.mem_cons_self _ _)]
        · rw [if_neg hv, if_neg (by simp [hv, hr])]

/-- The handle the source's start-selection rule leaves after processing a
whole edge list: the last terminal-incident edge wins, the handle sits at its
terminal endpoint (source side preferred), and its edge id is `base` plus the
edge's position in the list.  `none` if no edge is terminal-incident. -/
def lastIncidentStart {T : Type} (isT : Nat → Bool) :
    List (Nat × Nat × T) → Nat → Option AdjEntry
  | [], _ => none
  | (u, v, _) :: rest, base =>
      match lastIncidentStart isT rest (base + 1) with
      | some a => some a
      | none =>
          if isT u then some ⟨base, true⟩
          else if isT v then some ⟨base, false⟩
          else none

theorem lastIncidentStart_cons {T : Type} (isT : Nat → Bool) (u v : Nat) (w : T)
    (rest : List (Nat × Nat × T)) (base : Nat) :
    lastIncidentStart isT ((u, v, w) :: rest) base =
      match lastIncidentStart isT rest (base + 1) with
      | some a => some a
      | none =>
          if isT u then some ⟨base, true⟩
          else if isT v then some ⟨base, false⟩
          else none := rfl

theorem addEdges_spec {T : Type} [Add T] (isT : Nat → Bool) (nc : Nat → Option Nat) :
    ∀ (el : List (Nat × Nat × T)) (g : EWGraph T) (c : T) (st : Option AdjEntry)
      (out : EWGraph T × T × Option AdjEntry),
      addEdges isT nc el g c st = some out →
      out.1.nextNode = g.nextNode ∧
      out.1.nodes = g.nodes ∧
      out.1.nextEdge = g.nextEdge + el.length ∧
      (∃ newEs, out.1.edges = g.edges ++ newEs ∧
        newEs.length = el.length ∧
        ∀ i, i < el.length →
          ∃ u v w uC vC, el[i]? = some (u, v, w) ∧ nc u = some uC ∧ nc v = some vC ∧
            newEs[i]? = some (g.nextEdge + i, ⟨uC, vC, w⟩)) ∧
      out.2.1 = el.foldl (fun acc e => acc + e.2.2) c ∧
      out.2.2 = (lastIncidentStart isT el g.nextEdge).or st := by
  intro el
  induction el with
  | nil =>
      intro g c st out h
      unfold addEdges at h
      cases h
      exact ⟨rfl, rfl, by simp, ⟨[], by simp⟩, rfl, by simp [lastIncidentStart, Option.or]⟩
  | cons e rest ih =>
      intro g c st out h
      obtain ⟨u, v, w⟩ := e
      unfold addEdges at h
      cases hu : nc u with
      | none => rw [hu] at h; simp at h
      | some uC =>
          cases hv : nc v with
          | none => rw [hu, hv] at h; simp at h
          | some vC =>
              rw [hu, hv] at h
              simp only at h
              obtain ⟨h1, h2, h3, ⟨newEs, hes, hlen, hdet⟩, hc, hst⟩ := ih _ _ _ _ h
              have hgnew : ((newEdge g uC vC w).1 : EWGraph T).nextEdge = g.nextEdge + 1 := rfl
              refine ⟨h1, h2, by rw [h3, hgnew, List.length_cons]; omega,
                ⟨(g.nextEdge, ⟨uC, vC, w⟩) :: newEs, ?_, by simp [hlen], ?_⟩, ?_, ?_⟩
              · rw [hes]
                show g.edges ++ [(g.nextEdge, ⟨uC, vC, w⟩)] ++ newEs = _
                simp
              · intro i hi
                cases i with
                | zero => exact ⟨u, v, w, uC, vC, by simp, hu, hv, by simp⟩
                | succ j =>
                    have hj : j < rest.length := by simpa using hi
                    obtain ⟨u', v', w', uC', vC', he', hu', hv', hn'⟩ := hdet j hj
                    refine ⟨u', v', w', uC', vC', by simpa using he', hu', hv', ?_⟩
                    rw [hgnew] at hn'
                    simpa [Nat.add_assoc, Nat.add_comm 1 j] using hn'
              · simpa using hc
              · rw [hst, hgnew, lastIncidentStart_cons]
                cases hrest : lastIncidentStart isT rest (g.nextEdge + 1) with
                | some a => simp [Option.or]
                | none =>
                    simp only
                    by_cases htu : isT u
                    · simp [htu, Option.or]
                    · by_cases htv : isT v
                      · simp [htu, htv, Option.or]
                      · simp [htu, htv, Option.or]

theorem insert_destruct {T E : Type} [Zero T] [Add T] {s s' : Store T E} {d : E}
    {τ : CompTree T} (h : insert s d τ = some s') :
    ¬τ.nodes.isEmpty ∧
    ∃ out, addEdges s.inst.isTerminal
        (addNodes τ.nodes s.graph s.nodeCopy s.nodeOrig [] []).2.1 τ.edges
        (addNodes τ.nodes s.graph s.nodeCopy s.nodeOrig [] []).1 0 none = some out ∧
      s' = { s with
        graph := out.1,
        nodeCopy := cleanup (addNodes τ.nodes s.graph s.nodeCopy s.nodeOrig [] []).2.1
          (addNodes τ.nodes s.graph s.nodeCopy s.nodeOrig [] []).2.2.2.1,
        nodeOrig := (addNodes τ.nodes s.graph s.nodeCopy s.nodeOrig [] []).2.2.1,
        components := s.components ++
          [⟨out.2.2,
            ((addNodes τ.nodes s.graph s.nodeCopy s.nodeOrig [] []).2.2.2.2).insertionSort
              (· ≤ ·),
            out.2.1, d⟩] } := by
  unfold insert at h
  by_cases he : τ.nodes.isEmpty
  · rw [if_pos he] at h
    simp at h
  · rw [if_neg he] at h
    simp only at h
    refine ⟨he, ?_⟩
    cases har : addEdges s.inst.isTerminal
        (addNodes τ.nodes s.graph s.nodeCopy s.nodeOrig [] []).2.1 τ.edges
        (addNodes τ.nodes s.graph s.nodeCopy s.nodeOrig [] []).1 0 none with
    | none => rw [har] at h; simp at h
    | some out =>
        simp only [har] at h
        exact ⟨out, rfl, (Option.some_inj.mp h).symm⟩

/-! ## The start handle sits on the last terminal-incident edge -/

/-- Claim C5, amended: after `insert`, the stored start handle is the edge
endpoint on the LAST terminal-incident edge found while copying the tree's
edges in the input edge order (not the first — the edge loop overwrites
`data.start` on every terminal-incident edge), sitting on the source endpoint
when the source original is a terminal and on the target endpoint otherwise;
its edge id is the store's edge counter before the call plus the position of
that edge. -/
theorem insert_start_on_last_terminal_incident {T E : Type} [Zero T] [Add T]
    (s s' : Store T E) (d : E) (τ : CompTree T) (a : AdjEntry)
    (hins : insert s d τ = some s')
    (hlast : lastIncidentStart s.inst.isTerminal τ.edges s.graph.nextEdge = some a) :
    (s'.components.getLast?).map (·.start) = some (some a) := by
  obtain ⟨-, out, haddE, hs'⟩ := insert_destruct hins
  obtain ⟨-, -, -, -, -, hst⟩ := addEdges_spec _ _ _ _ _ _ _ haddE
  rw [(addNodes_graph τ.nodes s.graph s.nodeCopy s.nodeOrig [] []).2, hlast] at hst
  rw [hs']
  simp only [List.getLast?_concat, Option.map_some']
  rw [hst]
  rfl

/-- A store over terminals 0 and 2 with an empty component table, the base
input for the start-handle counterexample. -/
def wStoreB : Store Nat Unit :=
  { inst := { terminals := [0, 2], isTerminal := fun n => n == 0 || n == 2 },
    graph := { nextNode := 2, nodes := [0, 1], nextEdge := 0, edges := [] },
    nodeCopy := fun n => if n == 0 then some 0 else if n == 2 then some 1 else none,
    nodeOrig := fun n => if n == 0 then some 0 else if n == 1 then some 2 else none,
    components := [] }

/-- A two-edge path `0 — 1 — 2` whose two endpoints are terminals; both its
edges are terminal-incident, the first one at the source endpoint 0. -/
def wTreeB : CompTree Nat := ⟨[0, 1, 2], [(0, 1, 3), (1, 2, 4)]⟩

/-- The result of inserting `wTreeB` into `wStoreB`. -/
def wStoreBIns : Store Nat Unit :=
  { wStoreB with
    graph := { nextNode := 3, nodes := [0, 1, 2], nextEdge := 2,
               edges := [(0, ⟨0, 2, 3⟩), (1, ⟨2, 1, 4⟩)] },
    nodeCopy := upd (upd wStoreB.nodeCopy 1 (some 2)) 1 none,
    nodeOrig := upd wStoreB.nodeOrig 2 (some 1),
    components := [⟨some ⟨1, false⟩, [0, 2], 7, ()⟩] }

/-- Claim C5 as stated is false on the code: for the two-edge path `wTreeB`,
the first terminal-incident edge (in input order) is the edge at position 0,
copied with edge id 0, but the stored start handle sits on edge id 1 — the
last terminal-incident edge, because the edge loop keeps overwriting
`data.start`. -/
theorem insert_start_first_incident_counterexample :
    insert wStoreB () wTreeB = some wStoreBIns ∧
    wTreeB.edges.findIdx
      (fun e => wStoreB.inst.isTerminal e.1 || wStoreB.inst.isTerminal e.2.1) = 0 ∧
    (wStoreBIns.components.getLast?).map (·.start) = some (some ⟨1, false⟩) ∧
    (1 : Nat) ≠ wStoreB.graph.nextEdge + 0 :=
  ⟨by with_unfolding_all rfl, by decide, by with_unfolding_all rfl, by decide⟩

theorem insert_start_on_last_terminal_incident_witness :
    (wStoreBIns.components.getLast?).map (·.start) = some (some ⟨1, false⟩) :=
  insert_start_on_last_terminal_incident wStoreB wStoreBIns () wTreeB ⟨1, false⟩
    (by with_unfolding_all rfl) (by with_unfolding_all rfl)

/-! ## Bounds checking of the identifier-taking operations -/

/-- Claim C6: every identifier-taking query (`terminals`, `isTerminal`,
`cost`, `start`) is bounds-checked against the current size — out-of-range
identifiers (negative or at least `size()`) fail, in-range identifiers return
the stored metadata — and the traversal entry points (`foreachAdjEntry`,
`foreachNode`, `foreachEdge`) likewise reject out-of-range identifiers; for
in-range identifiers `foreachAdjEntry` behaves as the unchecked traversal of
the stored record. -/
theorem queries_bounds_checked {T E : Type} (s : Store T E) (id : Int) (t : Nat)
    (pr : Nat → Nat → Option (Nat × Nat)) (fuel : Nat) :
    ((id < 0 ∨ size s ≤ id) →
      terminalsQ s id = none ∧ isTerminalQ s id t = none ∧ costQ s id = none ∧
      startQ s id = none ∧ foreachAdjEntryVisits s id fuel = none ∧
      foreachNodeVisits s id fuel = none ∧ foreachEdgeVisits s pr id fuel = none) ∧
    ((0 ≤ id ∧ id < size s) →
      ∃ md, s.components[id.toNat]? = some md ∧
        terminalsQ s id = some md.terminals ∧
        isTerminalQ s id t = some (md.terminals.contains t) ∧
        costQ s id = some md.cost ∧
        startQ s id = some md.start ∧
        foreachAdjEntryVisits s id fuel = foreachAdjEntryCore s id.toNat fuel) := by
  constructor
  · intro hout
    have hneg : ¬(0 ≤ id ∧ id < size s) := by omega
    have h1 : terminalsQ s id = none := by rw [terminalsQ, if_neg hneg]
    have h4 : startQ s id = none := by rw [startQ, if_neg hneg]
    have h5 : foreachAdjEntryVisits s id fuel = none := by
      rw [foreachAdjEntryVisits, if_neg hneg]
    refine ⟨h1, by rw [isTerminalQ, if_neg hneg], by rw [costQ, if_neg hneg], h4, h5, ?_, ?_⟩
    · rw [foreachNodeVisits, h4]
      rfl
    · rw [foreachEdgeVisits, h5]
      rfl
  · intro hin
    have hlt : id.toNat < s.components.length := by
      have := hin.2
      unfold size at this
      omega
    obtain ⟨md, hmd⟩ := Option.isSome_iff_exists.mp (by
      rw [List.getElem?_eq_getElem hlt]
      simp : (s.components[id.toNat]?).isSome)
    have hget : s.components.get? id.toNat = some md := by
      rw [List.get?_eq_getElem?, hmd]
    refine ⟨md, hmd, ?_, ?_, ?_, ?_, ?_⟩
    · rw [terminalsQ, if_pos hin, hget]
      rfl
    · rw [isTerminalQ, if_pos hin, hget]
      rfl
    · rw [costQ, if_pos hin, hget]
      rfl
    · rw [startQ, if_pos hin, hget]
      rfl
    · rw [foreachAdjEntryVisits, if_pos hin]

theorem queries_bounds_checked_witness :
    costQ wStore 2 = none ∧ costQ wStore (-1) = none ∧ costQ wStore 0 = some 5 := by
  refine ⟨((queries_bounds_checked wStore 2 0 (fun _ _ => none) 0).1
      (by decide)).2.2.1,
    ((queries_bounds_checked wStore (-1) 0 (fun _ _ => none) 0).1
      (by decide)).2.2.1, ?_⟩
  obtain ⟨md, hmd, -, -, hcost, -⟩ :=
    (queries_bounds_checked wStore 0 0 (fun _ _ => none) 0).2 (by decide)
  have h0 : wStore.components[Int.toNat 0]? =
      some (⟨some ⟨0, true⟩, [0, 1], 5, ()⟩ : Metadata Nat Unit) := by
    with_unfolding_all rfl
  have hmdeq : md = ⟨some ⟨0, true⟩, [0, 1], 5, ()⟩ :=
    Option.some_inj.mp (hmd.symm.trans h0)
  rw [hcost, hmdeq]

/-! ## The two-terminal degenerate component -/

theorem insertionSort_pair (a b : Nat) :
    List.insertionSort (· ≤ ·) [a, b] = [min a b, max a b] := by
  by_cases h : a ≤ b
  · simp [List.insertionSort, List.orderedInsert, h, Nat.min_def, Nat.max_def]
  · simp [List.insertionSort, List.orderedInsert, h, Nat.min_def, Nat.max_def]

/-- Claim C9: inserting a single-edge tree `(a, b)` of weight `w` between two
terminals yields a component whose cost is `w`, whose terminal list is
`{a, b}` sorted by node index, whose start handle is the source entry of the
copied edge, and on which `foreachAdjEntry` reports exactly one handle — the
twin of the stored start. -/
theorem insert_two_terminal_degenerate {T E : Type} [AddMonoid T]
    (s : Store T E) (d : E) (a b : Nat) (w : T) (ca cb : Nat)
    (hta : s.inst.isTerminal a = true) (htb : s.inst.isTerminal b = true)
    (hab : a ≠ b)
    (hca : s.nodeCopy a = some ca) (hcb : s.nodeCopy b = some cb) :
    ∃ s', insert s d ⟨[a, b], [(a, b, w)]⟩ = some s' ∧
      ∃ md, s'.components[s.components.length]? = some md ∧
        md.cost = w ∧
        md.terminals = [min a b, max a b] ∧
        md.start = some ⟨s.graph.nextEdge, true⟩ ∧
        ∀ fuel, foreachAdjEntryCore s' s.components.length fuel =
          some [AdjEntry.twin ⟨s.graph.nextEdge, true⟩] := by
  have hall : ∀ x ∈ [a, b], (s.nodeCopy x).isSome := by
    intro x hx
    rcases List.mem_cons.mp hx with rfl | hx
    · rw [hca]; rfl
    · rcases List.mem_singleton.mp hx with rfl
      rw [hcb]; rfl
  have hadd := addNodes_all_hit [a, b] s.graph s.nodeCopy s.nodeOrig [] [] hall
  have hedge : addEdges s.inst.isTerminal s.nodeCopy [(a, b, w)] s.graph 0 none =
      some ((newEdge s.graph ca cb w).1, 0 + w,
        some (⟨s.graph.nextEdge, true⟩ : AdjEntry)) := by
    unfold addEdges
    rw [hca, hcb]
    simp only [hta, if_true]
    rfl
  have hins : insert s d ⟨[a, b], [(a, b, w)]⟩ =
      some { s with graph := (newEdge s.graph ca cb w).1,
                    components := s.components ++
                      [⟨some ⟨s.graph.nextEdge, true⟩, [min a b, max a b], 0 + w, d⟩] } := by
    unfold insert
    rw [if_neg (by simp)]
    simp only [hadd, List.nil_append, hedge, insertionSort_pair]
    rfl
  refine ⟨_, hins, ⟨some ⟨s.graph.nextEdge, true⟩, [min a b, max a b], 0 + w, d⟩,
    ?_, zero_add w, rfl, rfl, ?_⟩
  · show (s.components ++ [_])[s.components.length]? = _
    rw [List.getElem?_append_right (le_refl _)]
    simp
  · intro fuel
    unfold foreachAdjEntryCore
    have hget : (s.components ++
        [(⟨some ⟨s.graph.nextEdge, true⟩, [min a b, max a b], 0 + w, d⟩ : Metadata T E)]).get?
          s.components.length =
        some ⟨some ⟨s.graph.nextEdge, true⟩, [min a b, max a b], 0 + w, d⟩ := by
      rw [List.get?_eq_getElem?, List.getElem?_append_right (le_refl _)]
      simp
    rw [show ({ s with graph := (newEdge s.graph ca cb w).1,
                       components := s.components ++
                         [⟨some ⟨s.graph.nextEdge, true⟩, [min a b, max a b], 0 + w, d⟩] } :
          Store T E).components = s.components ++
          [⟨some ⟨s.graph.nextEdge, true⟩, [min a b, max a b], 0 + w, d⟩] from rfl, hget]
    rfl

theorem insert_two_terminal_degenerate_witness :
    ∃ s', insert wStoreB () ⟨[0, 2], [(0, 2, 9)]⟩ = some s' ∧
      ∃ md, s'.components[0]? = some md ∧
        md.cost = 9 ∧
        md.terminals = [min 0 2, max 0 2] ∧
        md.start = some ⟨0, true⟩ ∧
        ∀ fuel, foreachAdjEntryCore s' 0 fuel = some [AdjEntry.twin ⟨0, true⟩] :=
  insert_two_terminal_degenerate wStoreB () 0 2 9 0 1 rfl rfl (by decide) rfl rfl

/-! ## Reachable stores and immutability of the terminal mapping -/

theorem remove_graph_only {T E : Type} {s s' : Store T E} {id fuel : Nat}
    (h : remove s id fuel = some s') :
    s'.inst = s.inst ∧ s'.nodeCopy = s.nodeCopy ∧ s'.nodeOrig = s.nodeOrig := by
  unfold remove at h
  cases hmd : s.components.get? id with
  | none => rw [hmd] at h; simp at h
  | some md =>
      simp only [hmd] at h
      cases hst : md.start with
      | none => simp [hst] at h
      | some a =>
          simp only [hst, Option.map_eq_some'] at h
          obtain ⟨g', _, hs'⟩ := h
          rw [← hs']
          exact ⟨rfl, rfl, rfl⟩

theorem insert_nodeCopy_preserves {T E : Type} [Zero T] [Add T]
    {s s' : Store T E} {d : E} {τ : CompTree T}
    (h : insert s d τ = some s') (x y : Nat) (hx : s.nodeCopy x = some y) :
    s'.nodeCopy x = some y := by
  obtain ⟨-, out, -, hs'⟩ := insert_destruct h
  rw [hs']
  show cleanup (addNodes τ.nodes s.graph s.nodeCopy s.nodeOrig [] []).2.1
      (addNodes τ.nodes s.graph s.nodeCopy s.nodeOrig [] []).2.2.2.1 x = some y
  rw [cleanup_eq]
  have hx1 := addNodes_nodeCopy_mono τ.nodes s.graph s.nodeCopy s.nodeOrig [] [] x y hx
  rw [if_neg, hx1]
  intro hmem
  rcases addNodes_tempUse_was_none τ.nodes s.graph s.nodeCopy s.nodeOrig [] [] x hmem with
    h0 | h0
  · simp at h0
  · rw [h0] at hx
    exact absurd hx (by simp)

/-- Stores reachable from the constructor by any sequence of successful
`insert` and `remove` calls whose tree inputs satisfy `P`. -/
inductive ReachableP (T E : Type) [Zero T] [Add T] (inst : Instance)
    (P : CompTree T → Prop) : Store T E → Prop
  | init : ReachableP T E inst P (mkStore T E inst)
  | ins {s s' : Store T E} {d : E} {τ : CompTree T} :
      ReachableP T E inst P s → P τ → insert s d τ = some s' → ReachableP T E inst P s'
  | rem {s s' : Store T E} {id fuel : Nat} :
      ReachableP T E inst P s → remove s id fuel = some s' → ReachableP T E inst P s'

theorem initTerminals_nonnull {T : Type} :
    ∀ (l : List Nat) (g : EWGraph T) (nc no : Nat → Option Nat) (t : Nat),
      (t ∈ l ∨ nc t ≠ none) → (initTerminals l g nc no).2.1 t ≠ none := by
  intro l
  induction l with
  | nil =>
      intro g nc no t ht
      rcases ht with h | h
      · simp at h
      · exact h
  | cons v rest ih =>
      intro g nc no t ht
      unfold initTerminals
      refine ih _ _ _ _ ?_
      rcases ht with h | h
      · rcases List.mem_cons.mp h with rfl | h
        · right
          unfold upd
          simp
        · exact Or.inl h
      · right
        unfold upd
        by_cases hv : t = v
        · simp [hv]
        · rw [if_neg hv]
          exact h

/-- Claim C8: the compact-graph node mapped to a terminal is created once at
store construction and never changes: after any sequence of successful
`insert` and `remove` calls, the `m_nodeCopy` entry of every terminal equals
the one set by the constructor (and is non-null), so any two stored
components spanning a terminal reference the same compact node.  `insert`
writes `m_nodeCopy` only at entries that were null, and its cleanup resets
only those transient entries; `remove` never touches the mapping. -/
theorem terminal_mapping_immutable {T E : Type} [Zero T] [Add T]
    (inst : Instance) (P : CompTree T → Prop) (s : Store T E)
    (hreach : ReachableP T E inst P s) (t : Nat) (ht : t ∈ inst.terminals) :
    s.nodeCopy t = (mkStore T E inst).nodeCopy t ∧
    (mkStore T E inst).nodeCopy t ≠ none := by
  have hinit : (mkStore T E inst).nodeCopy t ≠ none :=
    initTerminals_nonnull inst.terminals {} (fun _ => none) (fun _ => none) t (Or.inl ht)
  refine ⟨?_, hinit⟩
  induction hreach with
  | init => rfl
  | ins hr hP hins ih =>
      obtain ⟨y, hy⟩ := Option.ne_none_iff_exists'.mp (ih ▸ hinit)
      rw [insert_nodeCopy_preserves hins t y hy, ← hy, ih]
  | rem hr hrem ih =>
      rw [(remove_graph_only hrem).2.1, ih]

/-- The instance underlying the reachable-store witnesses: terminals 0 and 1. -/
def wInst : Instance := ⟨[0, 1], fun n => n ≤ 1⟩

/-- The store obtained from `mkStore wInst` by inserting the single-edge tree
`(0, 1, 9)`. -/
def wS1 : Store Nat Unit :=
  { mkStore Nat Unit wInst with
    graph := { nextNode := 2, nodes := [0, 1], nextEdge := 1,
               edges := [(0, ⟨0, 1, 9⟩)] },
    components := [⟨some ⟨0, true⟩, [0, 1], 9, ()⟩] }

theorem terminal_mapping_immutable_witness :
    wS1.nodeCopy 0 = (mkStore Nat Unit wInst).nodeCopy 0 ∧
    (mkStore Nat Unit wInst).nodeCopy 0 ≠ none :=
  terminal_mapping_immutable wInst (fun _ => True) wS1
    (ReachableP.ins ReachableP.init trivial
      (show insert (mkStore Nat Unit wInst) () ⟨[0, 1], [(0, 1, 9)]⟩ = some wS1 by
        with_unfolding_all rfl))
    0 (by decide)

/-! ## A certificate for the skeleton DFS of `foreachAdjEntry` -/

/-- A certified run of the `foreachAdjEntry` DFS.  `AW isT no es V stk backs`
states that, starting from the pending stack `stk` — each pending handle
paired with the number of edges into terminals in the subtree it spans — with
the edge ids in `V` already visited, the walk consumes the whole stack and
reports exactly the handles `backs`, in order, never meeting an edge twice.
A derivation exists precisely when the skeleton reachable from the stack is
tree-shaped with terminals as leaves and every crossed Steiner node of
adjacency degree at least 3, the well-formedness invariant of the spec. -/
inductive AW {T : Type} (isT : Nat → Bool) (no : Nat → Option Nat)
    (es : List (Nat × EWEdge T)) : Finset Nat → List (AdjEntry × Nat) → List AdjEntry → Prop
  | nil (V : Finset Nat) : AW isT no es V [] []
  | popTerm {V : Finset Nat} {a : AdjEntry} {stk : List (AdjEntry × Nat)}
      {backs : List AdjEntry} {wn wO : Nat} :
      a.edgeId ∉ V →
      theNodeOf es a.twin = some wn → no wn = some wO → isT wO = true →
      AW isT no es (Insert.insert a.edgeId V) stk backs →
      AW isT no es V ((a, 1) :: stk) (a.twin :: backs)
  | popSteiner {V : Finset Nat} {a : AdjEntry} {stk : List (AdjEntry × Nat)}
      {backs : List AdjEntry} {wn wO : Nat} {pushed : List AdjEntry} (ts : List Nat) :
      a.edgeId ∉ V →
      theNodeOf es a.twin = some wn → no wn = some wO → isT wO = false →
      rotateAfter (adjList es wn) a.twin = some pushed →
      2 ≤ pushed.length →
      ts.length = pushed.length →
      AW isT no es (Insert.insert a.edgeId V) (pushed.reverse.zip ts ++ stk) backs →
      AW isT no es V ((a, ts.sum) :: stk) (a.twin :: backs)

/-- The potential of a pending stack: each pending subtree with `t` terminal
edges contributes `2·t − 1`.  It bounds the stack length and never grows
during the walk. -/
def phi {α : Type} (stk : List (α × Nat)) : Nat :=
  (stk.map (fun p => 2 * p.2 - 1)).sum

theorem AW_t_ge_one {T : Type} {isT : Nat → Bool} {no : Nat → Option Nat}
    {es : List (Nat × EWEdge T)} {V : Finset Nat} {stk : List (AdjEntry × Nat)}
    {backs : List AdjEntry} (h : AW isT no es V stk backs) :
    ∀ p ∈ stk, 1 ≤ p.2 := by
  induction h with
  | nil => intro p hp; simp at hp
  | popTerm _ _ _ _ _ ih =>
      intro p hp
      rcases List.mem_cons.mp hp with rfl | hp
      · exact le_refl 1
      · exact ih p hp
  | popSteiner ts h1 h2 h3 h4 h5 hlen2 hts hsub ih =>
      rename_i V2 a2 stk2 backs2 wn2 wO2 pushed2
      intro p hp
      rcases List.mem_cons.mp hp with rfl | hp
      · show 1 ≤ ts.sum
        have hmap : List.map Prod.snd (pushed2.reverse.zip ts) = ts :=
          List.map_snd_zip _ _ (by simp [hts])
        have hall : ∀ x ∈ ts, 1 ≤ x := by
          intro x hx
          rw [← hmap] at hx
          obtain ⟨p, hp, rfl⟩ := List.mem_map.mp hx
          exact ih p (List.mem_append_left _ hp)
        calc 1 ≤ ts.length := by omega
        _ ≤ ts.sum := List.length_le_sum_of_one_le ts hall
      · exact ih p (List.mem_append_right _ hp)

theorem AdjEntry.twin_edgeId (a : AdjEntry) : a.twin.edgeId = a.edgeId := rfl

theorem phi_cons {α : Type} (p : α × Nat) (stk : List (α × Nat)) :
    phi (p :: stk) = (2 * p.2 - 1) + phi stk := by
  simp [phi]

theorem phi_append {α : Type} (l1 l2 : List (α × Nat)) :
    phi (l1 ++ l2) = phi l1 + phi l2 := by
  simp [phi]

theorem phi_add_length {α : Type} (stk : List (α × Nat)) (h : ∀ p ∈ stk, 1 ≤ p.2) :
    phi stk + stk.length = 2 * ((stk.map Prod.snd).sum) := by
  induction stk with
  | nil => simp [phi]
  | cons p rest ih =>
      have hp := h p (List.mem_cons_self _ _)
      have hr := ih (fun q hq => h q (List.mem_cons_of_mem _ hq))
      rw [phi_cons]
      simp only [List.map_cons, List.sum_cons, List.length_cons]
      omega

theorem length_le_phi {α : Type} (stk : List (α × Nat)) (h : ∀ p ∈ stk, 1 ≤ p.2) :
    stk.length ≤ phi stk := by
  have h1 := phi_add_length stk h
  have h2 : stk.length ≤ (stk.map Prod.snd).sum := by
    have := List.length_le_sum_of_one_le (stk.map Prod.snd) (by
      intro x hx
      obtain ⟨p, hp, rfl⟩ := List.mem_map.mp hx
      exact h p hp)
    simpa using this
  omega

theorem AW_backs_nodup {T : Type} {isT : Nat → Bool} {no : Nat → Option Nat}
    {es : List (Nat × EWEdge T)} {V : Finset Nat} {stk : List (AdjEntry × Nat)}
    {backs : List AdjEntry} (h : AW isT no es V stk backs) :
    (backs.map (·.edgeId)).Nodup ∧ ∀ e ∈ backs.map (·.edgeId), e ∉ V := by
  induction h with
  | nil => simp
  | popTerm h1 h2 h3 h4 hsub ih =>
      rename_i V2 a2 stk2 backs2 wn2 wO2
      obtain ⟨hnd, hdis⟩ := ih
      constructor
      · rw [List.map_cons, List.nodup_cons]
        refine ⟨fun hmem => ?_, hnd⟩
        have := hdis _ hmem
        rw [AdjEntry.twin_edgeId] at this
        exact this (Finset.mem_insert_self _ _)
      · intro e he
        rw [List.map_cons] at he
        rcases List.mem_cons.mp he with rfl | he
        · rw [AdjEntry.twin_edgeId]
          exact h1
        · intro heV
          exact hdis e he (Finset.mem_insert_of_mem heV)
  | popSteiner ts h1 h2 h3 h4 h5 hlen2 hts hsub ih =>
      rename_i V2 a2 stk2 backs2 wn2 wO2 pushed2
      obtain ⟨hnd, hdis⟩ := ih
      constructor
      · rw [List.map_cons, List.nodup_cons]
        refine ⟨fun hmem => ?_, hnd⟩
        have := hdis _ hmem
        rw [AdjEntry.twin_edgeId] at this
        exact this (Finset.mem_insert_self _ _)
      · intro e he
        rw [List.map_cons] at he
        rcases List.mem_cons.mp he with rfl | he
        · rw [AdjEntry.twin_edgeId]
          exact h1
        · intro heV
          exact hdis e he (Finset.mem_insert_of_mem heV)

theorem dfsLoop_of_AW {T : Type} {isT : Nat → Bool} {no : Nat → Option Nat}
    {es : List (Nat × EWEdge T)} {cap : Nat} {V : Finset Nat}
    {stk : List (AdjEntry × Nat)} {backs : List AdjEntry}
    (h : AW isT no es V stk backs) :
    phi stk ≤ cap →
    ∀ fuel, backs.length ≤ fuel → ∀ acc,
      dfsLoop isT no es cap fuel (stk.map Prod.fst) acc = some (acc.reverse ++ backs) := by
  induction h with
  | nil =>
      intro _ fuel _ acc
      cases fuel <;> simp [dfsLoop]
  | popTerm h1 h2 h3 h4 hsub ih =>
      rename_i V2 a2 stk2 backs2 wn2 wO2
      intro hphi fuel hfuel acc
      cases fuel with
      | zero => simp at hfuel
      | succ f =>
          simp only [List.map_cons, dfsLoop, h2, isTermNodeOf, h3, Option.map_some', h4]
          rw [ih (by rw [phi_cons] at hphi; omega) f (by simpa using hfuel) (a2.twin :: acc)]
          simp
  | popSteiner ts h1 h2 h3 h4 h5 hlen2 hts hsub ih =>
      rename_i V2 a2 stk2 backs2 wn2 wO2 pushed2
      intro hphi fuel hfuel acc
      cases fuel with
      | zero => simp at hfuel
      | succ f =>
          have htgeo := AW_t_ge_one hsub
          have hziplen : (pushed2.reverse.zip ts).length = pushed2.length := by
            rw [List.length_zip, List.length_reverse, hts]
            omega
          have hmapsnd : List.map Prod.snd (pushed2.reverse.zip ts) = ts :=
            List.map_snd_zip _ _ (by simp [hts])
          have hsum : 1 ≤ ts.sum := by
            have hall : ∀ x ∈ ts, 1 ≤ x := by
              intro x hx
              rw [← hmapsnd] at hx
              obtain ⟨p, hp, rfl⟩ := List.mem_map.mp hx
              exact htgeo p (List.mem_append_left _ hp)
            have := List.length_le_sum_of_one_le ts hall
            omega
          have hphizip : phi (pushed2.reverse.zip ts) + pushed2.length = 2 * ts.sum := by
            have := phi_add_length (pushed2.reverse.zip ts)
              (fun p hp => htgeo p (List.mem_append_left _ hp))
            rw [hziplen, hmapsnd] at this
            exact this
          have hphicons : 2 * ts.sum - 1 + phi stk2 ≤ cap := by
            rw [phi_cons] at hphi
            exact hphi
          have hlenle : (pushed2.reverse.zip ts ++ stk2).length ≤
              phi (pushed2.reverse.zip ts ++ stk2) :=
            length_le_phi _ htgeo
          have hphinew : phi (pushed2.reverse.zip ts ++ stk2) + 1 ≤ cap := by
            rw [phi_append]
            omega
          have hcapok : ¬(cap < (stk2.map Prod.fst).length + pushed2.length) := by
            rw [List.length_append, hziplen] at hlenle
            rw [phi_append] at hlenle hphinew
            rw [List.length_map]
            omega
          simp only [List.map_cons, dfsLoop, h2, isTermNodeOf, h3, Option.map_some', h4, h5]
          rw [if_neg hcapok]
          have hmapfst : List.map Prod.fst (pushed2.reverse.zip ts) = pushed2.reverse :=
            List.map_fst_zip _ _ (by simp [hts])
          have := ih (by omega) f (by simpa using hfuel) (a2.twin :: acc)
          rw [List.map_append, hmapfst] at this
          rw [this]
          simp

/-- The visit sequence a well-formed stored component prescribes: for a
2-terminal component the single twin of the start handle, otherwise a
certified DFS run from the start handle whose pending subtree carries one
terminal edge per terminal other than the start terminal. -/
def SkeletonWalk {T E : Type} (isT : Nat → Bool) (no : Nat → Option Nat)
    (es : List (Nat × EWEdge T)) (md : Metadata T E) (backs : List AdjEntry) : Prop :=
  ∃ st, md.start = some st ∧
    ((md.terminals.length = 2 ∧ backs = [st.twin]) ∨
     (3 ≤ md.terminals.length ∧
       AW isT no es ∅ [(st, md.terminals.length - 1)] backs))

theorem foreachAdjEntryCore_eq_backs {T E : Type} (s : Store T E) (i : Nat)
    (md : Metadata T E) (backs : List AdjEntry)
    (hmd : s.components.get? i = some md)
    (hskel : SkeletonWalk s.inst.isTerminal s.nodeOrig s.graph.edges md backs) :
    ∀ fuel, backs.length ≤ fuel → foreachAdjEntryCore s i fuel = some backs := by
  intro fuel hfuel
  obtain ⟨st, hst, hcase⟩ := hskel
  unfold foreachAdjEntryCore
  rcases hcase with ⟨h2, rfl⟩ | ⟨h3, hw⟩
  · simp only [hmd, hst]
    rw [if_pos h2]
  · simp only [hmd, hst]
    rw [if_neg (by omega)]
    rw [if_neg (by omega : ¬(2 * md.terminals.length - 2 < 1))]
    have hphi : phi [(st, md.terminals.length - 1)] ≤ 2 * md.terminals.length - 2 := by
      rw [phi_cons]
      simp only [phi, List.map_nil, List.sum_nil]
      omega
    have := dfsLoop_of_AW hw hphi fuel hfuel []
    simpa using this

/-- The spec's running example: three terminals 0, 1, 2 joined through one
Steiner node (compact node 3, original 7) with edge weights 2, 3, 4; the
stored start sits on the last terminal-incident edge. -/
def wStar : Store Nat Unit :=
  { inst := { terminals := [0, 1, 2], isTerminal := fun n => n ≤ 2 },
    graph := { nextNode := 4, nodes := [0, 1, 2, 3], nextEdge := 3,
               edges := [(0, ⟨0, 3, 2⟩), (1, ⟨3, 1, 3⟩), (2, ⟨3, 2, 4⟩)] },
    nodeCopy := fun n => if n ≤ 2 then some n else none,
    nodeOrig := fun n => if n ≤ 2 then some n else if n = 3 then some 7 else none,
    components := [⟨some ⟨2, false⟩, [0, 1, 2], 9, ()⟩] }

/-! ## Loss conservation -/

/-- The weight of a live edge by id, defaulting to `0` for a missing edge. -/
def edgeWeight {T : Type} [Zero T] (es : List (Nat × EWEdge T)) (e : Nat) : T :=
  ((findE es e).map (·.w)).getD 0

theorem weightOf_eq_edgeWeight {T : Type} [Zero T] (es : List (Nat × EWEdge T))
    (a : AdjEntry) : weightOf es a = edgeWeight es a.edgeId := rfl

theorem classifyVisits_extra {T : Type} [AddMonoid T] (es : List (Nat × EWEdge T))
    (pr : Nat → Option Nat) (isLossEdge : Nat → Bool) (fuel : Nat) :
    ∀ (visits : List AdjEntry) (x : LossMetadata T) (lt : Nat → Option Nat)
      (res : LossMetadata T × (Nat → Option Nat)),
      classifyVisits es pr isLossEdge fuel visits x lt = some res →
      res.1.loss = x.loss +
        ((visits.filter (fun a => isLossEdge a.edgeId)).map (weightOf es)).sum ∧
      res.1.bridges = x.bridges ++
        (visits.filter (fun a => !isLossEdge a.edgeId)).map (fun a => a.edgeId) := by
  intro visits
  induction visits with
  | nil =>
      intro x lt res h
      cases h
      constructor
      · simp
      · simp
  | cons a rest ih =>
      intro x lt res h
      unfold classifyVisits at h
      by_cases hL : isLossEdge a.edgeId
      · rw [if_pos hL] at h
        obtain ⟨h1, h2⟩ := ih _ _ _ h
        constructor
        · rw [h1]
          simp only [List.filter_cons, hL, if_pos trivial, List.map_cons, List.sum_cons]
          rw [add_assoc]
        · rw [h2]
          simp [List.filter_cons, hL]
      · rw [if_neg hL] at h
        cases hfe : findE es a.edgeId with
        | none => rw [hfe] at h; simp at h
        | some ed =>
            simp only [hfe] at h
            cases hc1 : findLossTerminal es pr fuel ed.src lt with
            | none => simp [hc1] at h
            | some r1 =>
                simp only [hc1] at h
                cases hc2 : findLossTerminal es pr fuel ed.tgt r1.1 with
                | none => simp [hc2] at h
                | some r2 =>
                    simp only [hc2] at h
                    obtain ⟨h1, h2⟩ := ih _ _ _ h
                    constructor
                    · rw [h1]
                      simp [List.filter_cons, hL]
                    · rw [h2]
                      simp only [List.filter_cons, hL, Bool.not_false, if_pos trivial,
                        List.map_cons]
                      simp

theorem foreachAdjEntryCore_congr {T E1 E2 : Type} (s1 : Store T E1) (s2 : Store T E2)
    (i fuel : Nat)
    (hisT : s1.inst.isTerminal = s2.inst.isTerminal)
    (hno : s1.nodeOrig = s2.nodeOrig)
    (hes : s1.graph.edges = s2.graph.edges)
    (hst : (s1.components.get? i).map (·.start) = (s2.components.get? i).map (·.start))
    (hlen : (s1.components.get? i).map (·.terminals.length) =
      (s2.components.get? i).map (·.terminals.length)) :
    foreachAdjEntryCore s1 i fuel = foreachAdjEntryCore s2 i fuel := by
  unfold foreachAdjEntryCore
  cases h1 : s1.components.get? i with
  | none =>
      cases h2 : s2.components.get? i with
      | none => rfl
      | some md2 => rw [h1, h2] at hst; simp at hst
  | some md1 =>
      cases h2 : s2.components.get? i with
      | none => rw [h1, h2] at hst; simp at hst
      | some md2 =>
          rw [h1, h2] at hst hlen
          simp only [Option.map_some', Option.some_inj] at hst hlen
          simp only [hst, hlen, hisT, hno, hes]

theorem sum_map_filter_partition {T : Type} [AddCommMonoid T] {α : Type}
    (p : α → Bool) (f : α → T) (l : List α) :
    ((l.filter p).map f).sum + ((l.filter (fun a => !p a)).map f).sum = (l.map f).sum := by
  induction l with
  | nil => simp
  | cons a rest ih =>
      by_cases h : p a
      · rw [List.filter_cons_of_pos h, List.filter_cons_of_neg (by simp [h]),
          List.map_cons, List.sum_cons, add_assoc, ih]
        simp
      · rw [List.filter_cons_of_neg (by simpa using h), List.filter_cons_of_pos (by simp [h]),
          List.map_cons, List.sum_cons, add_left_comm, ih]
        simp

theorem addZeroEdges_spec {T : Type} [Zero T] (nc : Nat → Option Nat) (sC : Nat) :
    ∀ (l : List Nat) (g : EWGraph T) (lt : Nat → Option Nat) (zs : List Nat)
      (res : EWGraph T × (Nat → Option Nat) × List Nat),
      addZeroEdges nc sC l g lt zs = some res →
      ∃ newEs, res.1.edges = g.edges ++ newEs ∧
        (∀ p ∈ newEs, p.1 ∈ res.2.2 ∧ g.nextEdge ≤ p.1) ∧
        (∀ e ∈ res.2.2, e ∈ zs ∨ g.nextEdge ≤ e) ∧
        (∀ e ∈ zs, e ∈ res.2.2) := by
  intro l
  induction l with
  | nil =>
      intro g lt zs res h
      cases h
      exact ⟨[], by simp, by simp, fun e he => Or.inl he, fun e he => he⟩
  | cons v rest ih =>
      intro g lt zs res h
      unfold addZeroEdges at h
      cases hv : nc v with
      | none => rw [hv] at h; simp at h
      | some vC =>
          simp only [hv] at h
          obtain ⟨newEs, h1, h2, h3, h4⟩ := ih _ _ _ _ h
          refine ⟨(g.nextEdge, ⟨sC, vC, 0⟩) :: newEs, ?_, ?_, ?_, ?_⟩
          · rw [h1]
            show g.edges ++ [(g.nextEdge, ⟨sC, vC, 0⟩)] ++ newEs = _
            simp
          · intro p hp
            rcases List.mem_cons.mp hp with rfl | hp
            · exact ⟨h4 g.nextEdge (List.mem_append_right _ (List.mem_singleton_self _)),
                le_refl _⟩
            · have := h2 p hp
              refine ⟨this.1, ?_⟩
              have h5 : (newEdge g sC vC (0 : T)).1.nextEdge ≤ p.1 := this.2
              simp only [newEdge] at h5
              omega
          · intro e he
            rcases h3 e he with h0 | h0
            · rcases List.mem_append.mp h0 with h0 | h0
              · exact Or.inl h0
              · rcases List.mem_singleton.mp h0 with rfl
                exact Or.inr (le_refl _)
            · right
              have h5 : (newEdge g sC vC (0 : T)).1.nextEdge ≤ e := h0
              simp only [newEdge] at h5
              omega
          · intro e he
            exact h4 e (List.mem_append_left _ he)

theorem foldl_delEdge_edges {T : Type} :
    ∀ (zs : List Nat) (g : EWGraph T),
      (zs.foldl (fun g eid => delEdge g eid) g).edges =
        g.edges.filter (fun p => decide (p.1 ∉ zs)) := by
  intro zs
  induction zs with
  | nil =>
      intro g
      simp
  | cons z rest ih =>
      intro g
      show (rest.foldl _ (delEdge g z)).edges = _
      rw [ih]
      show ((g.edges.filter _).filter _) = _
      rw [List.filter_filter]
      apply List.filter_congr
      intro p hp
      simp only [List.mem_cons, not_or, decide_not]
      cases hz : decide (p.1 = z) <;> cases hr : decide (p.1 ∈ rest) <;>
        simp_all

theorem lossLoop_spec {T : Type} [AddMonoid T] (s2 : Store T (LossMetadata T))
    (pr : Nat → Option Nat) (isLoss : Nat → Bool) (fuel : Nat) :
    ∀ (l : List Nat) (comps : List (Metadata T (LossMetadata T))) (lt : Nat → Option Nat)
      (res : List (Metadata T (LossMetadata T)) × (Nat → Option Nat)),
      lossLoop s2 pr isLoss fuel l comps lt = some res →
      l.Nodup →
      (∀ i, i ∉ l → res.1.get? i = comps.get? i) ∧
      (∀ i ∈ l, ∃ visits md,
        comps.get? i = some md ∧
        foreachAdjEntryCore { s2 with components := comps } i fuel = some visits ∧
        res.1.get? i = some { md with extra :=
          ⟨md.extra.loss + ((visits.filter (fun a => isLoss a.edgeId)).map
              (weightOf s2.graph.edges)).sum,
           md.extra.bridges ++ (visits.filter (fun a => !isLoss a.edgeId)).map
              (fun a => a.edgeId)⟩ }) := by
  intro l
  induction l with
  | nil =>
      intro comps lt res h _
      cases h
      exact ⟨fun i _ => rfl, fun i hi => absurd hi (by simp)⟩
  | cons id rest ih =>
      intro comps lt res h hnd
      unfold lossLoop at h
      cases hv : foreachAdjEntryCore { s2 with components := comps } id fuel with
      | none => rw [hv] at h; simp at h
      | some visits =>
          simp only [hv] at h
          cases hm : comps.get? id with
          | none => rw [hm] at h; simp at h
          | some md =>
              simp only [hm] at h
              cases hc : classifyVisits s2.graph.edges pr isLoss fuel visits md.extra lt with
              | none => rw [hc] at h; simp at h
              | some r =>
                  simp only [hc] at h
                  have hidne : id ∉ rest := (List.nodup_cons.mp hnd).1
                  have hrestnd : rest.Nodup := (List.nodup_cons.mp hnd).2
                  obtain ⟨ih1, ih2⟩ := ih _ _ _ h hrestnd
                  have hidlt : id < comps.length := by
                    rw [List.get?_eq_getElem?] at hm
                    exact (List.getElem?_eq_some_iff.mp hm).1
                  have hsetself :
                      (comps.set id { md with extra := r.1 }).get? id =
                        some { md with extra := r.1 } := by
                    rw [List.get?_eq_getElem?, List.getElem?_set_self (by omega)]
                  have hsetother : ∀ j, j ≠ id →
                      (comps.set id { md with extra := r.1 }).get? j = comps.get? j := by
                    intro j hj
                    rw [List.get?_eq_getElem?, List.get?_eq_getElem?,
                      List.getElem?_set_ne (fun h0 => hj h0.symm)]
                  have hcongr : ∀ j,
                      foreachAdjEntryCore
                        { s2 with components := comps.set id { md with extra := r.1 } } j fuel =
                      foreachAdjEntryCore { s2 with components := comps } j fuel := by
                    intro j
                    apply foreachAdjEntryCore_congr <;> try rfl
                    · by_cases hj : j = id
                      · subst hj
                        show ((comps.set j { md with extra := r.1 }).get? j).map _ =
                          (comps.get? j).map _
                        rw [hsetself, hm]
                        rfl
                      · show ((comps.set id { md with extra := r.1 }).get? j).map _ =
                          (comps.get? j).map _
                        rw [hsetother j hj]
                    · by_cases hj : j = id
                      · subst hj
                        show ((comps.set j { md with extra := r.1 }).get? j).map _ =
                          (comps.get? j).map _
                        rw [hsetself, hm]
                        rfl
                      · show ((comps.set id { md with extra := r.1 }).get? j).map _ =
                          (comps.get? j).map _
                        rw [hsetother j hj]
                  obtain ⟨hloss, hbr⟩ := classifyVisits_extra s2.graph.edges pr isLoss fuel
                    visits md.extra lt r hc
                  constructor
                  · intro i hi
                    rw [ih1 i (fun h0 => hi (List.mem_cons_of_mem _ h0)),
                      hsetother i (fun h0 => hi (h0 ▸ List.mem_cons_self _ _))]
                  · intro i hi
                    rcases List.mem_cons.mp hi with rfl | hi
                    · refine ⟨visits, md, hm, hv, ?_⟩
                      rw [ih1 i hidne, hsetself]
                      have : r.1 = ⟨md.extra.loss + ((visits.filter
                          (fun a => isLoss a.edgeId)).map (weightOf s2.graph.edges)).sum,
                          md.extra.bridges ++ (visits.filter
                          (fun a => !isLoss a.edgeId)).map (fun a => a.edgeId)⟩ := by
                        cases hr : r.1 with
                        | mk rl rb =>
                            rw [hr] at hloss hbr
                            simp only at hloss hbr
                            rw [hloss, hbr]
                      rw [this]
                    · obtain ⟨visits2, md2, hmd2, hcore2, hres2⟩ := ih2 i hi
                      have hine : i ≠ id := fun h0 => hidne (h0 ▸ hi)
                      refine ⟨visits2, md2, ?_, ?_, hres2⟩
                      · rw [← hsetother i hine]
                        exact hmd2
                      · rw [← hcongr i]
                        exact hcore2

/-- Claim C3: after `computeAllLosses` has run, for every stored component,
`loss(id)` plus the sum of the weights of the edges in `lossBridges(id)`
equals `cost(id)`: every handle reported by `foreachAdjEntry` is classified
either as an MST edge, adding its weight to the loss, or appended to the
bridge list, with no edge counted twice or skipped. -/
theorem loss_conservation {T : Type} [AddCommMonoid T] (s : Store T (LossMetadata T))
    (mst : Nat → EWGraph T → (Nat → Option Nat) × (Nat → Bool)) (fuel : Nat)
    (res : Store T (LossMetadata T) × (Nat → Option Nat))
    (hrun : computeAllLosses s mst fuel = some res)
    (hfresh : ∀ p ∈ s.graph.edges, p.1 < s.graph.nextEdge)
    (hx0 : ∀ i md, s.components.get? i = some md → md.extra = ⟨0, []⟩)
    (hskel : ∀ i md, s.components.get? i = some md →
      ∃ backs, SkeletonWalk s.inst.isTerminal s.nodeOrig s.graph.edges md backs ∧
        backs.length ≤ fuel ∧
        md.cost = (backs.map (weightOf s.graph.edges)).sum) :
    ∀ i md', res.1.components.get? i = some md' →
      md'.extra.loss + (md'.extra.bridges.map (edgeWeight res.1.graph.edges)).sum
        = md'.cost := by
  unfold computeAllLosses at hrun
  cases hterm : s.inst.terminals with
  | nil => simp [hterm] at hrun
  | cons t0 restT =>
      simp only [hterm] at hrun
      cases hsc : s.nodeCopy t0 with
      | none => simp [hsc] at hrun
      | some sC =>
          simp only [hsc] at hrun
          cases hz : addZeroEdges s.nodeCopy sC restT s.graph
              (upd (fun _ => none) sC (some t0)) [] with
          | none => simp [hz] at hrun
          | some r1 =>
              simp only [hz] at hrun
              set g2 : EWGraph T := r1.2.2.foldl (fun g eid => delEdge g eid) r1.1 with hg2def
              set s2 : Store T (LossMetadata T) := { s with graph := g2 } with hs2def
              have hg2 : g2.edges = s.graph.edges := by
                rw [hg2def, foldl_delEdge_edges]
                obtain ⟨newEs, he1, he2, he3, -⟩ :=
                  addZeroEdges_spec s.nodeCopy sC restT s.graph _ [] r1 hz
                rw [he1, List.filter_append]
                have hold : s.graph.edges.filter (fun p => decide (p.1 ∉ r1.2.2)) =
                    s.graph.edges := by
                  apply List.filter_eq_self.mpr
                  intro p hp
                  simp only [decide_eq_true_eq]
                  intro hmem
                  rcases he3 p.1 hmem with h0 | h0
                  · simp at h0
                  · exact absurd (hfresh p hp) (by omega)
                have hnew : newEs.filter (fun p => decide (p.1 ∉ r1.2.2)) = [] := by
                  apply List.filter_eq_nil_iff.mpr
                  intro p hp
                  simp only [decide_eq_true_eq, Decidable.not_not]
                  exact (he2 p hp).1
                rw [hold, hnew, List.append_nil]
              cases hll : lossLoop s2 (mst sC r1.1).1 (mst sC r1.1).2 fuel
                  (List.range s.components.length) s2.components r1.2.1 with
              | none => simp [hll] at hrun
              | some r2 =>
                  simp only [hll] at hrun
                  cases hrun
                  intro i md' hres
                  obtain ⟨sp1, sp2⟩ := lossLoop_spec _ _ _ fuel _ _ _ _ hll
                    (List.nodup_range _)
                  by_cases hir : i ∈ List.range s.components.length
                  · obtain ⟨visits, md, hm, hcore, hresi⟩ := sp2 i hir
                    have hmd'eq : md' = { md with extra :=
                        ⟨md.extra.loss + ((visits.filter (fun a =>
                            (mst sC r1.1).2 a.edgeId)).map (weightOf s2.graph.edges)).sum,
                         md.extra.bridges ++ (visits.filter (fun a =>
                            !(mst sC r1.1).2 a.edgeId)).map (fun a => a.edgeId)⟩ } :=
                      Option.some_inj.mp (hres.symm.trans hresi)
                    obtain ⟨backs, hsw, hlenf, hcost⟩ := hskel i md hm
                    have hsw2 : SkeletonWalk s2.inst.isTerminal s2.nodeOrig
                        s2.graph.edges md backs := by
                      show SkeletonWalk s.inst.isTerminal s.nodeOrig g2.edges md backs
                      rw [hg2]
                      exact hsw
                    have hcore2 := foreachAdjEntryCore_eq_backs s2 i md backs hm hsw2
                      fuel hlenf
                    have hveq : visits = backs := Option.some_inj.mp (hcore.symm.trans hcore2)
                    subst hveq
                    have hx := hx0 i md hm
                    rw [hmd'eq]
                    show (md.extra.loss + _) + (List.map (edgeWeight s2.graph.edges) _).sum
                      = md.cost
                    rw [hx]
                    show ((0 : T) + _) + (List.map (edgeWeight s2.graph.edges)
                      (([] : List Nat) ++ _)).sum = md.cost
                    rw [List.nil_append, zero_add]
                    have hmapw : (((visits.filter (fun a =>
                        !(mst sC r1.1).2 a.edgeId)).map (fun a => a.edgeId)).map
                        (edgeWeight s2.graph.edges)).sum =
                        ((visits.filter (fun a => !(mst sC r1.1).2 a.edgeId)).map
                          (weightOf s2.graph.edges)).sum := by
                      rw [List.map_map]
                      rfl
                    rw [hmapw]
                    show _ = md.cost
                    have hpart := sum_map_filter_partition
                      (fun a => (mst sC r1.1).2 a.edgeId) (weightOf s2.graph.edges) visits
                    rw [hpart]
                    show (List.map (weightOf g2.edges) visits).sum = md.cost
                    rw [hg2]
                    exact hcost.symm
                  · rw [sp1 i hir] at hres
                    have hlt : i < s.components.length := by
                      rw [List.get?_eq_getElem?] at hres
                      exact (List.getElem?_eq_some_iff.mp hres).1
                    exact absurd (List.mem_range.mpr hlt) hir

/-- The loss-store version of the 3-terminal star, with default-initialized
loss payloads. -/
def wStarL : Store Nat (LossMetadata Nat) :=
  { inst := { terminals := [0, 1, 2], isTerminal := fun n => n ≤ 2 },
    graph := { nextNode := 4, nodes := [0, 1, 2, 3], nextEdge := 3,
               edges := [(0, ⟨0, 3, 2⟩), (1, ⟨3, 1, 3⟩), (2, ⟨3, 2, 4⟩)] },
    nodeCopy := fun n => if n ≤ 2 then some n else none,
    nodeOrig := fun n => if n ≤ 2 then some n else if n = 3 then some 7 else none,
    components := [⟨some ⟨2, false⟩, [0, 1, 2], 9, ⟨0, []⟩⟩] }

/-- A concrete external MST oracle for the witness run: empty predecessor
table, edges 0 and 1 are tree edges, edge 2 is not. -/
def wMst : Nat → EWGraph Nat → (Nat → Option Nat) × (Nat → Bool) :=
  fun _ _ => (fun _ => none, fun e => e ≠ 2)

/-- The store after `computeAllLosses wStarL wMst 5`: loss 5 (edges 0 and 1),
bridge list `[2]`. -/
def wStarLRes : Store Nat (LossMetadata Nat) :=
  { wStarL with
    graph := { nextNode := 4, nodes := [0, 1, 2, 3], nextEdge := 5,
               edges := [(0, ⟨0, 3, 2⟩), (1, ⟨3, 1, 3⟩), (2, ⟨3, 2, 4⟩)] },
    components := [⟨some ⟨2, false⟩, [0, 1, 2], 9, ⟨5, [2]⟩⟩] }

/-- The `m_lossTerminal` map produced by the witness run. -/
def wLt : Nat → Option Nat :=
  upd (upd (upd (fun _ => none) 0 (some 0)) 1 (some 1)) 2 (some 2)

theorem loss_conservation_witness :
    (5 : Nat) + (([2] : List Nat).map (edgeWeight wStarLRes.graph.edges)).sum = 9 :=
  loss_conservation wStarL wMst 5 (wStarLRes, wLt)
    (by with_unfolding_all rfl)
    (by decide)
    (by
      intro i md h
      cases i with
      | zero =>
          have h' : some (⟨some ⟨2, false⟩, [0, 1, 2], 9, ⟨0, []⟩⟩ :
              Metadata Nat (LossMetadata Nat)) = some md := h
          obtain rfl := Option.some_inj.mp h'
          rfl
      | succ n =>
          have h' : (none : Option (Metadata Nat (LossMetadata Nat))) = some md := h
          exact Option.noConfusion h')
    (by
      intro i md h
      cases i with
      | zero =>
          have h' : some (⟨some ⟨2, false⟩, [0, 1, 2], 9, ⟨0, []⟩⟩ :
              Metadata Nat (LossMetadata Nat)) = some md := h
          obtain rfl := Option.some_inj.mp h'
          refine ⟨[⟨2, true⟩, ⟨1, false⟩, ⟨0, true⟩],
            ⟨⟨2, false⟩, rfl, Or.inr ⟨by decide,
              AW.popSteiner [1, 1] (by decide) rfl rfl rfl rfl (by decide) rfl
                (AW.popTerm (by decide) rfl rfl rfl
                  (AW.popTerm (by decide) rfl rfl rfl
                    (AW.nil _)))⟩⟩, by decide, by decide⟩
      | succ n =>
          have h' : (none : Option (Metadata Nat (LossMetadata Nat))) = some md := h
          exact Option.noConfusion h')
    0 ⟨some ⟨2, false⟩, [0, 1, 2], 9, ⟨5, [2]⟩⟩ rfl

/-! ## The bounded stack of the removal surgery -/

/-- A certified run of the graph-surgery walk in `remove`.
`RW isT no g stk gf sz` states that, from the pending node stack `stk` — each
pending node paired with the number of terminals in the subtree hanging below
it — the walk consumes the whole stack in `sz` pops, transforming the graph
`g` into `gf`.  A derivation exists precisely when the structure reachable
from the stack unfolds as a tree whose leaves are terminals and whose
non-terminal nodes have current degree at least 2 (original degree at least 3,
the parent edge having been deleted), the well-formedness invariant the spec
assumes for this walk. -/
inductive RW {T : Type} (isT : Nat → Bool) (no : Nat → Option Nat) :
    EWGraph T → List (Nat × Nat) → EWGraph T → Nat → Prop
  | nil (g : EWGraph T) : RW isT no g [] g 0
  | popTerm {g : EWGraph T} {v vO : Nat} {stk : List (Nat × Nat)} {gf : EWGraph T}
      {sz : Nat} :
      no v = some vO → isT vO = true →
      RW isT no g stk gf sz →
      RW isT no g ((v, 1) :: stk) gf (sz + 1)
  | popSteiner {g : EWGraph T} {v vO : Nat} {stk : List (Nat × Nat)} {gf : EWGraph T}
      {ws : List Nat} {sz : Nat} (ts : List Nat) :
      no v = some vO → isT vO = false →
      (adjList g.edges v).mapM (twinNodeOf g.edges) = some ws →
      2 ≤ ws.length →
      ts.length = ws.length →
      RW isT no (delNode g v) (ws.reverse.zip ts ++ stk) gf sz →
      RW isT no g ((v, ts.sum) :: stk) gf (sz + 1)

theorem RW_t_ge_one {T : Type} {isT : Nat → Bool} {no : Nat → Option Nat}
    {g : EWGraph T} {stk : List (Nat × Nat)} {gf : EWGraph T} {sz : Nat}
    (h : RW isT no g stk gf sz) :
    ∀ p ∈ stk, 1 ≤ p.2 := by
  induction h with
  | nil => intro p hp; simp at hp
  | popTerm h1 h2 hsub ih =>
      intro p hp
      rcases List.mem_cons.mp hp with rfl | hp
      · exact le_refl 1
      · exact ih p hp
  | popSteiner ts h1 h2 h3 hlen2 hts hsub ih =>
      rename_i g2 v2 vO2 stk2 gf2 ws2 sz2
      intro p hp
      rcases List.mem_cons.mp hp with rfl | hp
      · show 1 ≤ ts.sum
        have hmap : List.map Prod.snd (ws2.reverse.zip ts) = ts :=
          List.map_snd_zip _ _ (by simp [hts])
        have hall : ∀ x ∈ ts, 1 ≤ x := by
          intro x hx
          rw [← hmap] at hx
          obtain ⟨p, hp, rfl⟩ := List.mem_map.mp hx
          exact ih p (List.mem_append_left _ hp)
        have := List.length_le_sum_of_one_le ts hall
        omega
      · exact ih p (List.mem_append_right _ hp)

theorem removeLoop_of_RW {T : Type} {isT : Nat → Bool} {no : Nat → Option Nat}
    {cap : Nat} {g : EWGraph T} {stk : List (Nat × Nat)} {gf : EWGraph T} {sz : Nat}
    (h : RW isT no g stk gf sz) :
    phi stk ≤ cap → ∀ fuel, sz ≤ fuel →
      removeLoop isT no cap fuel g (stk.map Prod.fst) = some gf := by
  induction h with
  | nil =>
      intro _ fuel _
      cases fuel <;> simp [removeLoop]
  | popTerm h1 h2 hsub ih =>
      intro hphi fuel hfuel
      cases fuel with
      | zero => omega
      | succ f =>
          simp only [List.map_cons, removeLoop, isTermNodeOf, h1, Option.map_some', h2]
          exact ih (by rw [phi_cons] at hphi; omega) f (by omega)
  | popSteiner ts h1 h2 h3 hlen2 hts hsub ih =>
      rename_i g2 v2 vO2 stk2 gf2 ws2 sz2
      intro hphi fuel hfuel
      cases fuel with
      | zero => omega
      | succ f =>
          have htgeo := RW_t_ge_one hsub
          have hziplen : (ws2.reverse.zip ts).length = ws2.length := by
            rw [List.length_zip, List.length_reverse, hts]
            omega
          have hmapsnd : List.map Prod.snd (ws2.reverse.zip ts) = ts :=
            List.map_snd_zip _ _ (by simp [hts])
          have hsum : 1 ≤ ts.sum := by
            have hall : ∀ x ∈ ts, 1 ≤ x := by
              intro x hx
              rw [← hmapsnd] at hx
              obtain ⟨p, hp, rfl⟩ := List.mem_map.mp hx
              exact htgeo p (List.mem_append_left _ hp)
            have := List.length_le_sum_of_one_le ts hall
            omega
          have hphizip : phi (ws2.reverse.zip ts) + ws2.length = 2 * ts.sum := by
            have := phi_add_length (ws2.reverse.zip ts)
              (fun p hp => htgeo p (List.mem_append_left _ hp))
            rw [hziplen, hmapsnd] at this
            exact this
          have hphicons : 2 * ts.sum - 1 + phi stk2 ≤ cap := by
            rw [phi_cons] at hphi
            exact hphi
          have hlenle : (ws2.reverse.zip ts ++ stk2).length ≤
              phi (ws2.reverse.zip ts ++ stk2) :=
            length_le_phi _ htgeo
          have hcapok : ¬(cap < (stk2.map Prod.fst).length + ws2.length) := by
            rw [List.length_append, hziplen] at hlenle
            rw [phi_append] at hlenle
            rw [List.length_map]
            omega
          simp only [List.map_cons, removeLoop, isTermNodeOf, h1, Option.map_some', h2, h3]
          rw [if_neg hcapok]
          have hmapfst : List.map Prod.fst (ws2.reverse.zip ts) = ws2.reverse :=
            List.map_fst_zip _ _ (by simp [hts])
          have hphinew : phi (ws2.reverse.zip ts ++ stk2) ≤ cap := by
            rw [phi_append]
            omega
          have := ih hphinew f (by omega)
          rw [List.map_append, hmapfst] at this
          exact this

/-- Claim C7: for a stored component with at least three terminals whose tree
satisfies the invariant that terminals are leaves and every internal Steiner
node has degree at least 3 (expressed by a certified walk `RW` from the
start handle's far node, spanning the component's other `|terminals| − 1`
terminals), the graph-surgery walk of `remove` completes within the
`BoundedStack` capacity `2·|terminals| − 3`: the modelled walk fails on any
push beyond that capacity, so success states that the stack never outgrows
it. -/
theorem remove_stack_bound {T E : Type} (s : Store T E) (id : Nat)
    (md : Metadata T E) (st : AdjEntry) (v0 : Nat) (gf : EWGraph T) (sz : Nat)
    (hmd : s.components.get? id = some md)
    (hst : md.start = some st)
    (h3 : 3 ≤ md.terminals.length)
    (hv0 : twinNodeOf s.graph.edges st = some v0)
    (hw : RW s.inst.isTerminal s.nodeOrig (delEdge s.graph st.edgeId)
      [(v0, md.terminals.length - 1)] gf sz) :
    ∀ fuel, sz ≤ fuel →
      remove s id fuel = some { s with graph := gf,
                                       components := removeMeta s.components id } := by
  intro fuel hfuel
  unfold remove
  simp only [hmd, hst, hv0]
  rw [if_neg (by omega : ¬md.terminals.length = 2)]
  rw [if_neg (by omega : ¬2 * md.terminals.length - 3 < 1)]
  have hphi : phi [(v0, md.terminals.length - 1)] ≤ 2 * md.terminals.length - 3 := by
    rw [phi_cons]
    simp only [phi, List.map_nil, List.sum_nil]
    omega
  have := removeLoop_of_RW hw hphi fuel hfuel
  simp only [List.map_cons, List.map_nil] at this
  rw [this]
  rfl

/-- The graph left after removing the star component of `wStar`: the three
skeleton edges and the private hub node 3 are gone, the terminal copies
remain. -/
def wStarGf : EWGraph Nat :=
  { nextNode := 4, nodes := [0, 1, 2], nextEdge := 3, edges := [] }

theorem remove_stack_bound_witness :
    remove wStar 0 3 = some { wStar with graph := wStarGf, components := [] } :=
  remove_stack_bound wStar 0 ⟨some ⟨2, false⟩, [0, 1, 2], 9, ()⟩ ⟨2, false⟩ 3 wStarGf 3
    rfl rfl (by decide) rfl
    (RW.popSteiner [1, 1] rfl rfl
      (show (adjList (delEdge wStar.graph 2).edges 3).mapM
          (twinNodeOf (delEdge wStar.graph 2).edges) = some [0, 1] from by
        with_unfolding_all rfl)
      (by decide) rfl
      (RW.popTerm rfl rfl
        (RW.popTerm rfl rfl
          (RW.nil _))))
    3 (le_refl 3)

/-! ## Ownership invariant: the start handle always sits on a terminal copy -/

/-- A compact node is a terminal copy: its original node exists and is a
terminal. -/
def TermCopyF (isT : Nat → Bool) (no : Nat → Option Nat) (v : Nat) : Prop :=
  ∃ t, no v = some t ∧ isT t = true

/-- The ownership footprint of one stored component: the edge ids and the
private non-terminal node ids it owns in the compact graph. -/
structure CompOwn where
  es : Finset Nat
  ns : Finset Nat

theorem findE_of_mem {T : Type} {es : List (Nat × EWEdge T)} {e : Nat} {ed : EWEdge T}
    (hnd : (es.map Prod.fst).Nodup) (hmem : (e, ed) ∈ es) :
    findE es e = some ed := by
  induction es with
  | nil => simp at hmem
  | cons p rest ih =>
      rcases List.mem_cons.mp hmem with rfl | hmem
      · unfold findE
        rw [List.find?_cons_of_pos _ (by simp)]
        rfl
      · have hnd2 := List.nodup_cons.mp (by simpa using hnd : (p.1 :: rest.map Prod.fst).Nodup)
        have hne : p.1 ≠ e := by
          intro h0
          exact hnd2.1 (List.mem_map.mpr ⟨(e, ed), hmem, by rw [h0]⟩)
        unfold findE
        rw [List.find?_cons_of_neg _ (by simp [hne])]
        exact ih hnd2.2 hmem

theorem mem_of_findE {T : Type} {es : List (Nat × EWEdge T)} {e : Nat} {ed : EWEdge T}
    (h : findE es e = some ed) : (e, ed) ∈ es := by
  unfold findE at h
  cases hf : es.find? (fun p => p.1 = e) with
  | none => rw [hf] at h; simp at h
  | some p =>
      rw [hf] at h
      have hp := List.find?_some hf
      have hmem := List.mem_of_find?_eq_some hf
      simp only [Option.map_some', Option.some_inj] at h
      have : p.1 = e := by simpa using hp
      rw [← h, ← this]
      exact hmem

theorem adjList_mem {T : Type} {es : List (Nat × EWEdge T)} {v : Nat} {a : AdjEntry}
    (h : a ∈ adjList es v) :
    ∃ ed, (a.edgeId, ed) ∈ es ∧
      ((a.atSrc = true ∧ ed.src = v) ∨ (a.atSrc = false ∧ ed.tgt = v)) := by
  unfold adjList at h
  obtain ⟨p, hp, hin⟩ := List.mem_flatMap.mp h
  rcases List.mem_append.mp hin with hin | hin
  · by_cases hsrc : p.2.src = v
    · rw [if_pos hsrc] at hin
      rcases List.mem_singleton.mp hin with rfl
      exact ⟨p.2, by simpa using hp, Or.inl ⟨rfl, hsrc⟩⟩
    · rw [if_neg hsrc] at hin
      simp at hin
  · by_cases htgt : p.2.tgt = v
    · rw [if_pos htgt] at hin
      rcases List.mem_singleton.mp hin with rfl
      exact ⟨p.2, by simpa using hp, Or.inr ⟨rfl, htgt⟩⟩
    · rw [if_neg htgt] at hin
      simp at hin

theorem twinNodeOf_eq {T : Type} {es : List (Nat × EWEdge T)} {a : AdjEntry}
    {ed : EWEdge T} (hnd : (es.map Prod.fst).Nodup) (hmem : (a.edgeId, ed) ∈ es) :
    twinNodeOf es a = some (if a.atSrc then ed.tgt else ed.src) := by
  unfold twinNodeOf theNodeOf
  rw [show a.twin.edgeId = a.edgeId from rfl, findE_of_mem hnd hmem]
  show some (if a.twin.atSrc then ed.src else ed.tgt) = _
  cases ha : a.atSrc <;> simp [AdjEntry.twin, ha]

/-- The ownership conditions of one stored component over the current shared
graph: the start handle is live, owned, and sits on a terminal copy; every
owned edge is live with both endpoints owned or terminal copies; every live
edge touching an owned node is owned (privacy); owned nodes are mapped
non-terminals. -/
def PerComp {T E : Type} (isT : Nat → Bool) (g : EWGraph T) (no : Nat → Option Nat)
    (md : Metadata T E) (o : CompOwn) : Prop :=
  (∃ a ed, md.start = some a ∧ a.edgeId ∈ o.es ∧ findE g.edges a.edgeId = some ed ∧
    TermCopyF isT no (if a.atSrc then ed.src else ed.tgt)) ∧
  (∀ e ∈ o.es, ∃ ed, findE g.edges e = some ed ∧
    (ed.src ∈ o.ns ∨ TermCopyF isT no ed.src) ∧
    (ed.tgt ∈ o.ns ∨ TermCopyF isT no ed.tgt)) ∧
  (∀ p ∈ g.edges, (p.2.src ∈ o.ns ∨ p.2.tgt ∈ o.ns) → p.1 ∈ o.es) ∧
  (∀ v ∈ o.ns, ∃ x, no v = some x ∧ isT x = false)

/-- The store-wide bookkeeping invariant: the two node mappings are inverse on
terminal copies, every flagged terminal is mapped, edge ids are unique, and
all live ids are below the allocation counters. -/
def GlobalInv {T E : Type} (s : Store T E) : Prop :=
  (∀ x u, s.nodeCopy x = some u →
    s.inst.isTerminal x = true ∧ s.nodeOrig u = some x ∧ u < s.graph.nextNode) ∧
  (∀ x, s.inst.isTerminal x = true → (s.nodeCopy x).isSome) ∧
  (∀ v x, s.nodeOrig v = some x → v < s.graph.nextNode) ∧
  (s.graph.edges.map Prod.fst).Nodup ∧
  (∀ p ∈ s.graph.edges, p.1 < s.graph.nextEdge ∧
    p.2.src < s.graph.nextNode ∧ p.2.tgt < s.graph.nextNode)

/-- The full invariant: global bookkeeping plus a pairwise-disjoint ownership
footprint for every stored component. -/
def StoreInv {T E : Type} (s : Store T E) : Prop :=
  GlobalInv s ∧
  ∃ own : List CompOwn, own.length = s.components.length ∧
    (∀ (i j : Nat) (oi oj : CompOwn), i ≠ j → own[i]? = some oi → own[j]? = some oj →
      Disjoint oi.es oj.es ∧ Disjoint oi.ns oj.ns) ∧
    (∀ (i : Nat) (md : Metadata T E) (o : CompOwn),
      s.components[i]? = some md → own[i]? = some o →
      PerComp s.inst.isTerminal s.graph s.nodeOrig md o)

theorem findE_append {T : Type} (es1 es2 : List (Nat × EWEdge T)) (e : Nat) :
    findE (es1 ++ es2) e = (findE es1 e).or (findE es2 e) := by
  unfold findE
  rw [List.find?_append]
  cases es1.find? (fun p => p.1 = e) <;> simp [Option.or]

theorem findE_eq_none {T : Type} {es : List (Nat × EWEdge T)} {e : Nat}
    (h : ∀ p ∈ es, p.1 ≠ e) : findE es e = none := by
  unfold findE
  rw [List.find?_eq_none.mpr (fun p hp => by simpa using h p hp)]
  rfl

theorem mapM_mem_some {α β : Type} (f : α → Option β) :
    ∀ (l : List α) (l' : List β), l.mapM f = some l' →
      ∀ b ∈ l', ∃ a ∈ l, f a = some b := by
  intro l
  induction l with
  | nil =>
      intro l' h b hb
      simp only [List.mapM_nil, pure, Option.some_inj] at h
      subst h
      simp at hb
  | cons a rest ih =>
      intro l' h b hb
      rw [List.mapM_cons] at h
      cases hfa : f a with
      | none => rw [hfa] at h; simp [bind, Option.bind] at h
      | some b0 =>
          rw [hfa] at h
          cases hrest : rest.mapM f with
          | none =>
              rw [hrest] at h
              simp [bind, Option.bind] at h
          | some bs =>
              rw [hrest] at h
              simp only [bind, Option.bind, pure, Option.some_inj] at h
              subst h
              rcases List.mem_cons.mp hb with rfl | hb
              · exact ⟨a, List.mem_cons_self a rest, hfa⟩
              · obtain ⟨a', ha', hfa'⟩ := ih bs hrest b hb
                exact ⟨a', List.mem_cons_of_mem _ ha', hfa'⟩

theorem initTerminals_inv {T : Type} (isT : Nat → Bool) :
    ∀ (l : List Nat) (g : EWGraph T) (nc no : Nat → Option Nat),
      (∀ x ∈ l, isT x = true) →
      (∀ x u, nc x = some u → isT x = true ∧ no u = some x ∧ u < g.nextNode) →
      (∀ v x, no v = some x → v < g.nextNode) →
      (∀ x u, (initTerminals l g nc no).2.1 x = some u →
        isT x = true ∧ (initTerminals l g nc no).2.2 u = some x ∧
        u < (initTerminals l g nc no).1.nextNode) ∧
      (∀ v x, (initTerminals l g nc no).2.2 v = some x →
        v < (initTerminals l g nc no).1.nextNode) ∧
      (∀ x ∈ l, ((initTerminals l g nc no).2.1 x).isSome) ∧
      (∀ x, (nc x).isSome → ((initTerminals l g nc no).2.1 x).isSome) ∧
      (initTerminals l g nc no).1.edges = g.edges ∧
      (initTerminals l g nc no).1.nextEdge = g.nextEdge := by
  intro l
  induction l with
  | nil =>
      intro g nc no hl hnc hno
      refine ⟨fun x u hx => hnc x u hx, hno, by simp, fun x hx => hx, rfl, rfl⟩
  | cons v rest ih =>
      intro g nc no hl hnc hno
      show _ ∧ _
      unfold initTerminals
      have hstep := ih (newNode g).1 (upd nc v (some (newNode g).2))
        (upd no (newNode g).2 (some v))
        (fun x hx => hl x (List.mem_cons_of_mem _ hx)) ?_ ?_
      · refine ⟨hstep.1, hstep.2.1, ?_, ?_, hstep.2.2.2.2.1, hstep.2.2.2.2.2⟩
        · intro x hx
          rcases List.mem_cons.mp hx with rfl | hx
          · refine hstep.2.2.2.1 x ?_
            unfold upd
            simp
          · exact hstep.2.2.1 x hx
        · intro x hx
          refine hstep.2.2.2.1 x ?_
          unfold upd
          by_cases hxv : x = v
          · rw [if_pos hxv]; simp
          · rw [if_neg hxv]; exact hx
      · intro x u hx
        unfold upd at hx ⊢
        by_cases hxv : x = v
        · subst hxv
          rw [if_pos rfl] at hx
          rcases Option.some_inj.mp hx with rfl
          rw [if_pos rfl]
          exact ⟨hl x (List.mem_cons_self x rest), rfl, Nat.lt_succ_self _⟩
        · rw [if_neg hxv] at hx
          obtain ⟨h1, h2, h3⟩ := hnc x u hx
          refine ⟨h1, ?_, Nat.lt_succ_of_lt h3⟩
          rw [if_neg (show u ≠ (newNode g).2 from by
            show u ≠ g.nextNode; omega)]
          exact h2
      · intro v' x hx
        unfold upd at hx
        by_cases hv' : v' = (newNode g).2
        · rw [hv']
          exact Nat.lt_succ_self _
        · rw [if_neg hv'] at hx
          exact Nat.lt_succ_of_lt (hno v' x hx)

theorem addNodes_nextNode_mono {T : Type} :
    ∀ (l : List Nat) (g : EWGraph T) (nc no : Nat → Option Nat) (tu ts : List Nat),
      g.nextNode ≤ (addNodes l g nc no tu ts).1.nextNode := by
  intro l
  induction l with
  | nil => intro g nc no tu ts; exact Nat.le_refl _
  | cons vO rest ih =>
      intro g nc no tu ts
      unfold addNodes
      cases nc vO with
      | none =>
          exact Nat.le_of_succ_le (ih (newNode g).1 (upd nc vO (some (newNode g).2))
            (upd no (newNode g).2 (some vO)) (tu ++ [vO]) ts)
      | some u => exact ih g nc no tu (ts ++ [vO])

theorem addNodes_nodeOrig_preserved {T : Type} :
    ∀ (l : List Nat) (g : EWGraph T) (nc no : Nat → Option Nat) (tu ts : List Nat)
      (v : Nat), v < g.nextNode → (addNodes l g nc no tu ts).2.2.1 v = no v := by
  intro l
  induction l with
  | nil => intro g nc no tu ts v _; rfl
  | cons vO rest ih =>
      intro g nc no tu ts v hv
      unfold addNodes
      cases nc vO with
      | none =>
          rw [ih (newNode g).1 (upd nc vO (some (newNode g).2))
            (upd no (newNode g).2 (some vO)) (tu ++ [vO]) ts v (Nat.lt_succ_of_lt hv)]
          unfold upd
          rw [if_neg (show v ≠ (newNode g).2 from by show v ≠ g.nextNode; omega)]
      | some u => exact ih g nc no tu (ts ++ [vO]) v hv

theorem addNodes_nodeOrig_fresh {T : Type} :
    ∀ (l : List Nat) (g : EWGraph T) (nc no : Nat → Option Nat) (tu ts : List Nat),
      (∀ v x, no v = some x → v < g.nextNode) →
      ∀ v x, (addNodes l g nc no tu ts).2.2.1 v = some x →
        v < (addNodes l g nc no tu ts).1.nextNode := by
  intro l
  induction l with
  | nil => intro g nc no tu ts hno v x hv; exact hno v x hv
  | cons vO rest ih =>
      intro g nc no tu ts hno v x hv
      unfold addNodes at hv ⊢
      cases hcase : nc vO with
      | none =>
          rw [hcase] at hv
          refine ih (newNode g).1 (upd nc vO (some (newNode g).2))
            (upd no (newNode g).2 (some vO)) (tu ++ [vO]) ts ?_ v x hv
          intro v' x' hv'
          unfold upd at hv'
          by_cases h : v' = (newNode g).2
          · rw [h]; exact Nat.lt_succ_self _
          · rw [if_neg h] at hv'
            exact Nat.lt_succ_of_lt (hno v' x' hv')
      | some u =>
          rw [hcase] at hv
          exact ih g nc no tu (ts ++ [vO]) hno v x hv

theorem addNodes_tempUse_mono {T : Type} :
    ∀ (l : List Nat) (g : EWGraph T) (nc no : Nat → Option Nat) (tu ts : List Nat)
      (x : Nat), x ∈ tu → x ∈ (addNodes l g nc no tu ts).2.2.2.1 := by
  intro l
  induction l with
  | nil => intro g nc no tu ts x hx; exact hx
  | cons vO rest ih =>
      intro g nc no tu ts x hx
      unfold addNodes
      cases nc vO with
      | none =>
          exact ih (newNode g).1 (upd nc vO (some (newNode g).2))
            (upd no (newNode g).2 (some vO)) (tu ++ [vO]) ts x (List.mem_append_left _ hx)
      | some u => exact ih g nc no tu (ts ++ [vO]) x hx

theorem addNodes_nodeCopy_destruct {T : Type} :
    ∀ (l : List Nat) (g : EWGraph T) (nc no : Nat → Option Nat) (tu ts : List Nat),
      ∀ x u, (addNodes l g nc no tu ts).2.1 x = some u →
        nc x = some u ∨
        (g.nextNode ≤ u ∧ (addNodes l g nc no tu ts).2.2.1 u = some x ∧
          nc x = none ∧ x ∈ (addNodes l g nc no tu ts).2.2.2.1) := by
  intro l
  induction l with
  | nil => intro g nc no tu ts x u hx; exact Or.inl hx
  | cons vO rest ih =>
      intro g nc no tu ts x u hx
      unfold addNodes at hx ⊢
      cases hcase : nc vO with
      | none =>
          rw [hcase] at hx
          rcases ih (newNode g).1 (upd nc vO (some (newNode g).2))
            (upd no (newNode g).2 (some vO)) (tu ++ [vO]) ts x u hx with h | h
          · unfold upd at h
            by_cases hxv : x = vO
            · subst hxv
              rw [if_pos rfl] at h
              rcases Option.some_inj.mp h with rfl
              refine Or.inr ⟨Nat.le_refl _, ?_, hcase, ?_⟩
              · rw [addNodes_nodeOrig_preserved rest (newNode g).1 _ _ _ _ (newNode g).2
                  (Nat.lt_succ_self _)]
                unfold upd
                rw [if_pos rfl]
              · exact addNodes_tempUse_mono rest (newNode g).1 _ _ _ _ x
                  (List.mem_append_right _ (List.mem_singleton.mpr rfl))
            · rw [if_neg hxv] at h
              exact Or.inl h
          · obtain ⟨h1, h2, h3, h4⟩ := h
            unfold upd at h3
            by_cases hxv : x = vO
            · rw [if_pos hxv] at h3
              exact absurd h3 (by simp)
            · rw [if_neg hxv] at h3
              exact Or.inr ⟨Nat.le_of_succ_le h1, h2, h3, h4⟩
      | some w =>
          rw [hcase] at hx
          exact ih g nc no tu (ts ++ [vO]) x u hx

theorem addNodes_fresh_assigned {T : Type} :
    ∀ (l : List Nat) (g : EWGraph T) (nc no : Nat → Option Nat) (tu ts : List Nat),
      ∀ v, g.nextNode ≤ v → v < (addNodes l g nc no tu ts).1.nextNode →
        ∃ x, (addNodes l g nc no tu ts).2.2.1 v = some x ∧ nc x = none ∧ x ∈ l := by
  intro l
  induction l with
  | nil =>
      intro g nc no tu ts v h1 h2
      exact absurd (Nat.lt_of_le_of_lt h1 h2) (Nat.lt_irrefl _)
  | cons vO rest ih =>
      intro g nc no tu ts v h1 h2
      unfold addNodes at h2 ⊢
      cases hcase : nc vO with
      | none =>
          rw [hcase] at h2
          by_cases hv : v = g.nextNode
          · subst hv
            refine ⟨vO, ?_, hcase, List.mem_cons_self vO rest⟩
            rw [addNodes_nodeOrig_preserved rest (newNode g).1 _ _ _ _ g.nextNode
              (Nat.lt_succ_self _)]
            unfold upd
            rw [if_pos (show g.nextNode = (newNode g).2 from rfl)]
          · obtain ⟨x, hx1, hx2, hx3⟩ := ih (newNode g).1 (upd nc vO (some (newNode g).2))
              (upd no (newNode g).2 (some vO)) (tu ++ [vO]) ts v
              (show (newNode g).1.nextNode ≤ v from by
                show g.nextNode + 1 ≤ v; omega) h2
            refine ⟨x, hx1, ?_, List.mem_cons_of_mem _ hx3⟩
            unfold upd at hx2
            by_cases hxv : x = vO
            · rw [if_pos hxv] at hx2
              exact absurd hx2 (by simp)
            · rw [if_neg hxv] at hx2
              exact hx2
      | some w =>
          rw [hcase] at h2
          obtain ⟨x, hx1, hx2, hx3⟩ := ih g nc no tu (ts ++ [vO]) v h1 h2
          exact ⟨x, hx1, hx2, List.mem_cons_of_mem _ hx3⟩

theorem lastIncidentStart_mem {T : Type} (isT : Nat → Bool) :
    ∀ (el : List (Nat × Nat × T)) (base : Nat) (a : AdjEntry),
      lastIncidentStart isT el base = some a →
      ∃ k u v w, el[k]? = some (u, v, w) ∧ a.edgeId = base + k ∧
        ((a.atSrc = true ∧ isT u = true) ∨
         (a.atSrc = false ∧ isT u = false ∧ isT v = true)) := by
  intro el
  induction el with
  | nil => intro base a h; simp [lastIncidentStart] at h
  | cons e rest ih =>
      intro base a h
      obtain ⟨u, v, w⟩ := e
      rw [lastIncidentStart_cons] at h
      cases hrest : lastIncidentStart isT rest (base + 1) with
      | some a0 =>
          rw [hrest] at h
          rcases Option.some_inj.mp h with rfl
          obtain ⟨k, u', v', w', h1, h2, h3⟩ := ih (base + 1) a0 hrest
          exact ⟨k + 1, u', v', w', by simpa using h1, by omega, h3⟩
      | none =>
          rw [hrest] at h
          by_cases hu : isT u
          · rw [if_pos hu] at h
            rcases Option.some_inj.mp h with rfl
            exact ⟨0, u, v, w, by simp, rfl, Or.inl ⟨rfl, hu⟩⟩
          · rw [if_neg hu] at h
            by_cases hv : isT v
            · rw [if_pos hv] at h
              rcases Option.some_inj.mp h with rfl
              exact ⟨0, u, v, w, by simp, rfl,
                Or.inr ⟨rfl, Bool.not_eq_true _ ▸ (by simpa using hu), hv⟩⟩
            · rw [if_neg hv] at h
              simp at h

theorem lastIncidentStart_isSome {T : Type} (isT : Nat → Bool) :
    ∀ (el : List (Nat × Nat × T)) (base : Nat),
      (∃ e ∈ el, isT e.1 = true ∨ isT e.2.1 = true) →
      ∃ a, lastIncidentStart isT el base = some a := by
  intro el
  induction el with
  | nil => intro base h; simp at h
  | cons e rest ih =>
      intro base h
      obtain ⟨u, v, w⟩ := e
      rw [lastIncidentStart_cons]
      cases hrest : lastIncidentStart isT rest (base + 1) with
      | some a0 => exact ⟨a0, rfl⟩
      | none =>
          obtain ⟨e0, he0, hcase⟩ := h
          rcases List.mem_cons.mp he0 with rfl | he0
        
          · simp only at hcase
            by_cases hu : isT u
            · exact ⟨⟨base, true⟩, by rw [if_pos hu]⟩
            · rw [if_neg hu]
              rcases hcase with hcase | hcase
              · exact absurd hcase (by simpa using hu)
              · exact ⟨⟨base, false⟩, by rw [if_pos hcase]⟩
          · obtain ⟨a0, ha0⟩ := ih (base + 1) ⟨e0, he0, hcase⟩
            rw [ha0] at hrest
            simp at hrest

theorem newEs_fst {T : Type} {newEs : List (Nat × EWEdge T)} {base len : Nat}
    (hlen : newEs.length = len)
    (hdet : ∀ i, i < len → ∃ ed, newEs[i]? = some (base + i, ed)) :
    newEs.map Prod.fst = (List.range len).map (fun i => base + i) := by
  apply List.ext_getElem?
  intro i
  by_cases hi : i < len
  · obtain ⟨ed, hed⟩ := hdet i hi
    rw [List.getElem?_map, hed, List.getElem?_map, List.getElem?_range hi]
    rfl
  · have h1 : newEs[i]? = none := List.getElem?_eq_none (by omega)
    have h2 : (List.range len)[i]? = none :=
      List.getElem?_eq_none (by simpa using Nat.le_of_not_lt hi)
    rw [List.getElem?_map, List.getElem?_map, h1, h2]
    rfl

theorem mem_shift_range {base len x : Nat} :
    x ∈ (List.range len).map (fun i => base + i) ↔ base ≤ x ∧ x < base + len := by
  constructor
  · intro h
    obtain ⟨i, hi, rfl⟩ := List.mem_map.mp h
    have := List.mem_range.mp hi
    omega
  · intro ⟨h1, h2⟩
    exact List.mem_map.mpr ⟨x - base, List.mem_range.mpr (by omega), by omega⟩

theorem nodup_shift_range (base len : Nat) :
    ((List.range len).map (fun i => base + i)).Nodup :=
  List.Nodup.map (fun a b hab => by omega) (List.nodup_range len)

theorem getElem?_append_destruct {α : Type} (l : List α) (x : α) (k : Nat) (y : α)
    (h : (l ++ [x])[k]? = some y) : l[k]? = some y ∨ (k = l.length ∧ y = x) := by
  by_cases hk : k < l.length
  · left
    rw [← h, List.getElem?_append, if_pos hk]
  · right
    have hk2 : k < l.length + 1 := by
      have := (List.getElem?_eq_some.mp h).1
      simpa using this
    have hkeq : k = l.length := by omega
    subst hkeq
    rw [List.getElem?_append, if_neg (Nat.lt_irrefl _)] at h
    simp at h
    exact ⟨rfl, h.symm⟩

theorem getElem?_append_left_of_some {α : Type} (l l2 : List α) (k : Nat) (y : α)
    (h : l[k]? = some y) : (l ++ l2)[k]? = some y := by
  rw [List.getElem?_append, if_pos (List.getElem?_eq_some.mp h).1]
  exact h

theorem insert_preserves_inv {T E : Type} [Zero T] [Add T]
    {s s' : Store T E} {d : E} {τ : CompTree T}
    (h : insert s d τ = some s')
    (hP : ∃ e ∈ τ.edges, s.inst.isTerminal e.1 = true ∨ s.inst.isTerminal e.2.1 = true)
    (hinv : StoreInv s) : StoreInv s' := by
  obtain ⟨⟨hG1, hG2, hG3, hG4, hG5⟩, own, hlen, hdisj, hpc⟩ := hinv
  obtain ⟨-, out, haddE, hs'⟩ := insert_destruct h
  subst hs'
  obtain ⟨hE1, hE2, hE3, ⟨newEs, hes, hnewlen, hdet0⟩, hcost, hst0⟩ :=
    addEdges_spec _ _ _ _ _ _ _ haddE
  have hRg := addNodes_graph τ.nodes s.graph s.nodeCopy s.nodeOrig [] []
  set R := addNodes τ.nodes s.graph s.nodeCopy s.nodeOrig [] [] with hRdef
  set n0 := s.graph.nextNode with hn0
  set nN := R.1.nextNode with hnN
  set base := s.graph.nextEdge with hbase
  set len := τ.edges.length with hlenE
  rw [hRg.2] at hdet0 hE3 hst0
  rw [hRg.1] at hes
  have hmono : n0 ≤ nN := addNodes_nextNode_mono τ.nodes s.graph s.nodeCopy s.nodeOrig [] []
  have hpres : ∀ v, v < n0 → R.2.2.1 v = s.nodeOrig v := fun v hv =>
    addNodes_nodeOrig_preserved τ.nodes s.graph s.nodeCopy s.nodeOrig [] [] v hv
  have hfno : ∀ v x, R.2.2.1 v = some x → v < nN :=
    addNodes_nodeOrig_fresh τ.nodes s.graph s.nodeCopy s.nodeOrig [] [] hG3
  have hdest := addNodes_nodeCopy_destruct τ.nodes s.graph s.nodeCopy s.nodeOrig [] []
  have hfass := addNodes_fresh_assigned τ.nodes s.graph s.nodeCopy s.nodeOrig [] []
  have hdet1 : ∀ i, i < len → ∃ ed, newEs[i]? = some (base + i, ed) := by
    intro i hi
    obtain ⟨u, v, w, uC, vC, _, _, _, hn⟩ := hdet0 i hi
    exact ⟨⟨uC, vC, w⟩, hn⟩
  have hmapfst : newEs.map Prod.fst = (List.range len).map (fun i => base + i) :=
    newEs_fst hnewlen hdet1
  have hnewid : ∀ p ∈ newEs, base ≤ p.1 ∧ p.1 < base + len := by
    intro p hp
    exact mem_shift_range.mp (hmapfst ▸ List.mem_map.mpr ⟨p, hp, rfl⟩)
  have holdid : ∀ p ∈ s.graph.edges, p.1 < base := fun p hp => (hG5 p hp).1
  have hnodupnew : (newEs.map Prod.fst).Nodup := by
    rw [hmapfst]
    exact nodup_shift_range base len
  have hnodup' : ((s.graph.edges ++ newEs).map Prod.fst).Nodup := by
    rw [List.map_append, List.nodup_append]
    refine ⟨hG4, hnodupnew, ?_⟩
    intro x hx1 hx2
    obtain ⟨p, hp, rfl⟩ := List.mem_map.mp hx1
    have h1 := holdid p hp
    rw [hmapfst] at hx2
    have h2 := mem_shift_range.mp hx2
    omega
  have hendp : ∀ x u, R.2.1 x = some u →
      (s.inst.isTerminal x = true ∧ R.2.2.1 u = some x ∧ u < n0) ∨
      (n0 ≤ u ∧ u < nN ∧ R.2.2.1 u = some x ∧ s.inst.isTerminal x = false) := by
    intro x u hx
    rcases hdest x u hx with hold | ⟨h1, h2, h3, h4⟩
    · obtain ⟨ht, hmap, hlt⟩ := hG1 x u hold
      exact Or.inl ⟨ht, by rw [hpres u hlt]; exact hmap, hlt⟩
    · refine Or.inr ⟨h1, hfno u x h2, h2, ?_⟩
      cases hxt : s.inst.isTerminal x
      · rfl
      · have h5 := hG2 x hxt
        rw [h3] at h5
        simp at h5
  have hnewdest : ∀ p ∈ newEs, ∃ i u v w, i < len ∧ τ.edges[i]? = some (u, v, w) ∧
      R.2.1 u = some p.2.src ∧ R.2.1 v = some p.2.tgt ∧ p.1 = base + i := by
    intro p hp
    obtain ⟨i, hgi⟩ := List.mem_iff_getElem?.mp hp
    have hi : i < len := by
      have := (List.getElem?_eq_some.mp hgi).1
      omega
    obtain ⟨u, v, w, uC, vC, hτ, hu, hv, hn⟩ := hdet0 i hi
    rw [hgi] at hn
    rcases Option.some_inj.mp hn with rfl
    exact ⟨i, u, v, w, hi, hτ, hu, hv, rfl⟩
  have hnewbound : ∀ p ∈ newEs, p.2.src < nN ∧ p.2.tgt < nN := by
    intro p hp
    obtain ⟨i, u, v, w, hi, hτ, hu, hv, hid⟩ := hnewdest p hp
    constructor
    · rcases hendp u p.2.src hu with h0 | h0
      · exact Nat.lt_of_lt_of_le h0.2.2 hmono
      · exact h0.2.1
    · rcases hendp v p.2.tgt hv with h0 | h0
      · exact Nat.lt_of_lt_of_le h0.2.2 hmono
      · exact h0.2.1
  have htc : ∀ vv, TermCopyF s.inst.isTerminal s.nodeOrig vv →
      TermCopyF s.inst.isTerminal R.2.2.1 vv := by
    intro vv hv
    obtain ⟨t, ht1, ht2⟩ := hv
    exact ⟨t, by rw [hpres vv (hG3 vv t ht1)]; exact ht1, ht2⟩
  have hfindnew : ∀ (i : Nat) (ed : EWEdge T), newEs[i]? = some (base + i, ed) →
      findE (s.graph.edges ++ newEs) (base + i) = some ed := by
    intro i ed hn
    rw [findE_append, findE_eq_none (fun p hp => by have := holdid p hp; omega)]
    show Option.or none _ = _
    show findE newEs (base + i) = some ed
    exact findE_of_mem hnodupnew (List.mem_iff_getElem?.mpr ⟨i, hn⟩)
  have hnsold : ∀ (o : CompOwn),
      (∀ v ∈ o.ns, ∃ x, s.nodeOrig v = some x ∧ s.inst.isTerminal x = false) →
      ∀ p ∈ newEs, p.2.src ∉ o.ns ∧ p.2.tgt ∉ o.ns := by
    intro o hd p hp
    obtain ⟨i, u, v, w, hi, hτ, hu, hv, hid⟩ := hnewdest p hp
    constructor
    · intro hmem
      obtain ⟨y, hy1, hy2⟩ := hd _ hmem
      rcases hendp u p.2.src hu with h0 | h0
      · rw [hpres _ h0.2.2, hy1] at h0
        rcases Option.some_inj.mp h0.2.1 with rfl
        rw [h0.1] at hy2
        exact absurd hy2 (by simp)
      · have := hG3 _ _ hy1
        omega
    · intro hmem
      obtain ⟨y, hy1, hy2⟩ := hd _ hmem
      rcases hendp v p.2.tgt hv with h0 | h0
      · rw [hpres _ h0.2.2, hy1] at h0
        rcases Option.some_inj.mp h0.2.1 with rfl
        rw [h0.1] at hy2
        exact absurd hy2 (by simp)
      · have := hG3 _ _ hy1
        omega
  refine ⟨⟨?_, ?_, ?_, ?_, ?_⟩,
    own ++ [⟨Finset.Ico base (base + len), Finset.Ico n0 nN⟩], ?_, ?_, ?_⟩
  · -- nodeCopy inverse
    intro x u hx
    dsimp only at hx ⊢
    rw [cleanup_eq] at hx
    by_cases hxm : x ∈ R.2.2.2.1
    · rw [if_pos hxm] at hx
      exact absurd hx (by simp)
    · rw [if_neg hxm] at hx
      rcases hdest x u hx with hold | ⟨h1, h2, h3, h4⟩
      · obtain ⟨ht, hmap, hlt⟩ := hG1 x u hold
        refine ⟨ht, by rw [hpres u hlt]; exact hmap, ?_⟩
        rw [hE1]
        exact Nat.lt_of_lt_of_le hlt hmono
      · exact absurd h4 hxm
  · -- every flagged terminal mapped
    intro x hxt
    dsimp only
    rw [cleanup_eq]
    obtain ⟨u, hu⟩ := Option.isSome_iff_exists.mp (hG2 x hxt)
    have hnm : x ∉ R.2.2.2.1 := by
      intro hmem
      rcases addNodes_tempUse_was_none τ.nodes s.graph s.nodeCopy s.nodeOrig [] [] x hmem
        with h0 | h0
      · simp at h0
      · rw [h0] at hu
        exact absurd hu (by simp)
    rw [if_neg hnm,
      addNodes_nodeCopy_mono τ.nodes s.graph s.nodeCopy s.nodeOrig [] [] x u hu]
    rfl
  · -- nodeOrig freshness
    intro v x hx
    dsimp only at hx ⊢
    rw [hE1]
    exact hfno v x hx
  · -- edge-id uniqueness
    dsimp only
    rw [hes]
    exact hnodup'
  · -- live ids below counters
    intro p hp
    dsimp only at hp ⊢
    rw [hes] at hp
    rw [hE1, hE3]
    rcases List.mem_append.mp hp with hp | hp
    · obtain ⟨hb1, hb2, hb3⟩ := hG5 p hp
      exact ⟨by omega, Nat.lt_of_lt_of_le hb2 hmono, Nat.lt_of_lt_of_le hb3 hmono⟩
    · obtain ⟨hb1, hb2⟩ := hnewid p hp
      obtain ⟨hb3, hb4⟩ := hnewbound p hp
      exact ⟨hb2, hb3, hb4⟩
  · -- lengths
    dsimp only
    rw [List.length_append, List.length_append, hlen]
    rfl
  · -- pairwise disjointness
    intro i j oi oj hij hi hj
    have hesold : ∀ (k : Nat) (o : CompOwn), own[k]? = some o →
        (∀ e ∈ o.es, e < base) ∧ (∀ v ∈ o.ns, v < n0) := by
      intro k o hk
      have hkl : k < s.components.length := by
        rw [← hlen]
        exact (List.getElem?_eq_some.mp hk).1
      obtain ⟨mdk, hmdk⟩ : ∃ mdk, s.components[k]? = some mdk :=
        ⟨s.components[k], List.getElem?_eq_some.mpr ⟨hkl, rfl⟩⟩
      obtain ⟨-, hb, -, hd⟩ := hpc k mdk o hmdk hk
      constructor
      · intro e he
        obtain ⟨ed, hfe, -⟩ := hb e he
        exact holdid _ (mem_of_findE hfe)
      · intro v hv
        obtain ⟨x, hx, -⟩ := hd v hv
        exact hG3 v x hx
    rcases getElem?_append_destruct _ _ _ _ hi with hi' | ⟨hieq, rfl⟩
    · rcases getElem?_append_destruct _ _ _ _ hj with hj' | ⟨hjeq, rfl⟩
      · exact hdisj i j oi oj hij hi' hj'
      · obtain ⟨hes1, hns1⟩ := hesold i oi hi'
        constructor
        · rw [Finset.disjoint_left]
          intro e he hnew
          have := Finset.mem_Ico.mp hnew
          have := hes1 e he
          omega
        · rw [Finset.disjoint_left]
          intro v hv hnew
          have := Finset.mem_Ico.mp hnew
          have := hns1 v hv
          omega
    · rcases getElem?_append_destruct _ _ _ _ hj with hj' | ⟨hjeq, rfl⟩
      · obtain ⟨hes1, hns1⟩ := hesold j oj hj'
        constructor
        · rw [Finset.disjoint_right]
          intro e he hnew
          have := Finset.mem_Ico.mp hnew
          have := hes1 e he
          omega
        · rw [Finset.disjoint_right]
          intro v hv hnew
          have := Finset.mem_Ico.mp hnew
          have := hns1 v hv
          omega
      · exact absurd (hieq.trans hjeq.symm) hij
  · -- per-component conditions
    intro i md o hi ho
    dsimp only at hi ⊢
    rcases getElem?_append_destruct _ _ _ _ hi with hi' | ⟨hieq, rfl⟩
    · rcases getElem?_append_destruct _ _ _ _ ho with ho' | ⟨hoeq, rfl⟩
      · -- surviving component
        obtain ⟨⟨a, ed, ha, hmem, hfe, htcend⟩, hb, hc, hd⟩ := hpc i md o hi' ho'
        refine ⟨⟨a, ed, ha, hmem, ?_, htc _ htcend⟩, ?_, ?_, ?_⟩
        · rw [hes, findE_append, hfe]
          rfl
        · intro e he
          obtain ⟨ed', hfe', hsrc, htgt⟩ := hb e he
          refine ⟨ed', by rw [hes, findE_append, hfe']; rfl, ?_, ?_⟩
          · rcases hsrc with h0 | h0
            · exact Or.inl h0
            · exact Or.inr (htc _ h0)
          · rcases htgt with h0 | h0
            · exact Or.inl h0
            · exact Or.inr (htc _ h0)
        · intro p hp hin
          rw [hes] at hp
          rcases List.mem_append.mp hp with hp | hp
          · exact hc p hp hin
          · obtain ⟨hns1, hns2⟩ := hnsold o hd p hp
            rcases hin with h0 | h0
            · exact absurd h0 hns1
            · exact absurd h0 hns2
        · intro v hv
          obtain ⟨x, hx1, hx2⟩ := hd v hv
          exact ⟨x, by rw [hpres v (hG3 v x hx1)]; exact hx1, hx2⟩
      · -- old component paired with the new footprint: impossible
        have h1 : i < s.components.length := (List.getElem?_eq_some.mp hi').1
        omega
    · rcases getElem?_append_destruct _ _ _ _ ho with ho' | ⟨hoeq, rfl⟩
      · have h1 : i < own.length := (List.getElem?_eq_some.mp ho').1
        omega
      · -- the freshly inserted component
        have hsome := lastIncidentStart_isSome s.inst.isTerminal τ.edges base hP
        obtain ⟨a, ha⟩ := hsome
        rw [ha] at hst0
        refine ⟨⟨a, ?_⟩, ?_, ?_, ?_⟩
        · obtain ⟨k, u, v, w, hk, hkid, hside⟩ := lastIncidentStart_mem _ _ _ _ ha
          have hklen : k < len := by
            have := (List.getElem?_eq_some.mp hk).1
            omega
          obtain ⟨u', v', w', uC, vC, hτ', hu', hv', hn'⟩ := hdet0 k hklen
          rw [hk] at hτ'
          rcases Option.some_inj.mp hτ' with heq
          rcases heq with ⟨rfl, rfl, rfl⟩  
          refine ⟨⟨uC, vC, w⟩, ?_, ?_, ?_, ?_⟩
          · show out.2.2 = some a
            rw [hst0]
            rfl
          · rw [hkid]
            exact Finset.mem_Ico.mpr ⟨by omega, by omega⟩
          · rw [hes, hkid]
            exact hfindnew k _ hn'
          · rcases hside with ⟨hsa, hsu⟩ | ⟨hsa, hsu, hsv⟩
            · rw [hsa]
              show TermCopyF s.inst.isTerminal R.2.2.1 uC
              rcases hendp u uC hu' with h0 | h0
              · exact ⟨u, h0.2.1, h0.1⟩
              · rw [hsu] at h0
                exact absurd h0.2.2.2 (by simp)
            · rw [hsa]
              show TermCopyF s.inst.isTerminal R.2.2.1 vC
              rcases hendp v vC hv' with h0 | h0
              · exact ⟨v, h0.2.1, h0.1⟩
              · rw [hsv] at h0
                exact absurd h0.2.2.2 (by simp)
        · intro e he
          have hbound := Finset.mem_Ico.mp he
          obtain ⟨i0, hi0⟩ : ∃ i0, e = base + i0 ∧ i0 < len := by
            exact ⟨e - base, by omega, by omega⟩
          obtain ⟨heq, hi0len⟩ := hi0
          subst heq
          obtain ⟨u, v, w, uC, vC, hτ', hu', hv', hn'⟩ := hdet0 i0 hi0len
          refine ⟨⟨uC, vC, w⟩, by rw [hes]; exact hfindnew i0 _ hn', ?_, ?_⟩
          · show uC ∈ Finset.Ico n0 nN ∨ TermCopyF s.inst.isTerminal R.2.2.1 uC
            rcases hendp u uC hu' with h0 | h0
            · exact Or.inr ⟨u, h0.2.1, h0.1⟩
            · exact Or.inl (Finset.mem_Ico.mpr ⟨h0.1, h0.2.1⟩)
          · show vC ∈ Finset.Ico n0 nN ∨ TermCopyF s.inst.isTerminal R.2.2.1 vC
            rcases hendp v vC hv' with h0 | h0
            · exact Or.inr ⟨v, h0.2.1, h0.1⟩
            · exact Or.inl (Finset.mem_Ico.mpr ⟨h0.1, h0.2.1⟩)
        · intro p hp hin
          rw [hes] at hp
          rcases List.mem_append.mp hp with hp | hp
          · obtain ⟨-, hb2, hb3⟩ := hG5 p hp
            rcases hin with h0 | h0
            · have := Finset.mem_Ico.mp h0
              omega
            · have := Finset.mem_Ico.mp h0
              omega
          · obtain ⟨hb1, hb2⟩ := hnewid p hp
            exact Finset.mem_Ico.mpr ⟨hb1, hb2⟩
        · intro v hv
          have hbound := Finset.mem_Ico.mp hv
          obtain ⟨x, hx1, hx2, hx3⟩ := hfass v hbound.1 hbound.2
          refine ⟨x, hx1, ?_⟩
          cases hxt : s.inst.isTerminal x
          · rfl
          · have h5 := hG2 x hxt
            rw [hx2] at h5
            simp at h5

theorem removeLoop_frame {T : Type} {isT : Nat → Bool} {no : Nat → Option Nat}
    {cap : Nat} (o : CompOwn) :
    ∀ (fuel : Nat) (g g' : EWGraph T) (stk : List Nat),
      removeLoop isT no cap fuel g stk = some g' →
      (∀ v ∈ stk, v ∈ o.ns ∨ TermCopyF isT no v) →
      (g.edges.map Prod.fst).Nodup →
      (∀ p ∈ g.edges, (p.2.src ∈ o.ns ∨ p.2.tgt ∈ o.ns) → p.1 ∈ o.es) →
      (∀ p ∈ g.edges, p.1 ∈ o.es →
        (p.2.src ∈ o.ns ∨ TermCopyF isT no p.2.src) ∧
        (p.2.tgt ∈ o.ns ∨ TermCopyF isT no p.2.tgt)) →
      g'.edges.Sublist g.edges ∧ g'.nextNode = g.nextNode ∧ g'.nextEdge = g.nextEdge ∧
      (∀ p ∈ g.edges, p.1 ∉ o.es → p ∈ g'.edges) := by
  intro fuel
  induction fuel with
  | zero =>
      intro g g' stk hrun hstk hnd hpriv hend
      cases stk with
      | nil =>
          have hg : g' = g := by
            unfold removeLoop at hrun
            exact (Option.some_inj.mp hrun).symm
          subst hg
          exact ⟨List.Sublist.refl _, rfl, rfl, fun p hp _ => hp⟩
      | cons v rest =>
          unfold removeLoop at hrun
          simp at hrun
  | succ n ih =>
      intro g g' stk hrun hstk hnd hpriv hend
      cases stk with
      | nil =>
          have hg : g' = g := by
            unfold removeLoop at hrun
            exact (Option.some_inj.mp hrun).symm
          subst hg
          exact ⟨List.Sublist.refl _, rfl, rfl, fun p hp _ => hp⟩
      | cons v rest =>
          unfold removeLoop at hrun
          cases hterm : isTermNodeOf isT no v with
          | none =>
              simp only [hterm] at hrun
              simp at hrun
          | some b =>
              simp only [hterm] at hrun
              cases b with
              | true =>
                  exact ih g g' rest hrun
                    (fun u hu => hstk u (List.mem_cons_of_mem _ hu)) hnd hpriv hend
              | false =>
                  have hvns : v ∈ o.ns := by
                    rcases hstk v (List.mem_cons_self v rest) with h0 | h0
                    · exact h0
                    · obtain ⟨t, ht1, ht2⟩ := h0
                      unfold isTermNodeOf at hterm
                      rw [ht1] at hterm
                      simp only [Option.map_some', Option.some_inj] at hterm
                      rw [ht2] at hterm
                      exact absurd hterm (by simp)
                  cases hpush : (adjList g.edges v).mapM (twinNodeOf g.edges) with
                  | none =>
                      simp only [hpush] at hrun
                      simp at hrun
                  | some pushed =>
                      simp only [hpush] at hrun
                      by_cases hcap : cap < rest.length + pushed.length
                      · rw [if_pos hcap] at hrun
                        simp at hrun
                      · rw [if_neg hcap] at hrun
                        have hsubdel : (delNode g v).edges.Sublist g.edges :=
                          List.filter_sublist _
                        have hnd2 : ((delNode g v).edges.map Prod.fst).Nodup :=
                          List.Nodup.sublist (hsubdel.map _) hnd
                        have hstk2 : ∀ u ∈ pushed.reverse ++ rest,
                            u ∈ o.ns ∨ TermCopyF isT no u := by
                          intro u hu
                          rcases List.mem_append.mp hu with hu | hu
                          · have hu' := List.mem_reverse.mp hu
                            obtain ⟨a, ha, hta⟩ :=
                              mapM_mem_some (twinNodeOf g.edges) _ _ hpush u hu'
                            obtain ⟨ed, hmem, hside⟩ := adjList_mem ha
                            have heid : a.edgeId ∈ o.es := by
                              refine hpriv (a.edgeId, ed) hmem ?_
                              rcases hside with ⟨_, h2⟩ | ⟨_, h2⟩
                              · exact Or.inl (h2 ▸ hvns)
                              · exact Or.inr (h2 ▸ hvns)
                            have hends := hend (a.edgeId, ed) hmem heid
                            have htw := twinNodeOf_eq hnd hmem
                            rw [hta] at htw
                            have hu2 := Option.some_inj.mp htw
                            rcases hside with ⟨h1, h2⟩ | ⟨h1, h2⟩
                            · rw [h1] at hu2
                              rw [hu2]
                              exact hends.2
                            · rw [h1] at hu2
                              rw [hu2]
                              exact hends.1
                          · exact hstk u (List.mem_cons_of_mem _ hu)
                        have hpriv2 : ∀ p ∈ (delNode g v).edges,
                            (p.2.src ∈ o.ns ∨ p.2.tgt ∈ o.ns) → p.1 ∈ o.es :=
                          fun p hp h0 => hpriv p (hsubdel.subset hp) h0
                        have hend2 : ∀ p ∈ (delNode g v).edges, p.1 ∈ o.es →
                            (p.2.src ∈ o.ns ∨ TermCopyF isT no p.2.src) ∧
                            (p.2.tgt ∈ o.ns ∨ TermCopyF isT no p.2.tgt) :=
                          fun p hp h0 => hend p (hsubdel.subset hp) h0
                        obtain ⟨hA, hB, hC, hD⟩ :=
                          ih (delNode g v) g' _ hrun hstk2 hnd2 hpriv2 hend2
                        refine ⟨hA.trans hsubdel, hB, hC, ?_⟩
                        intro p hp hnotes
                        refine hD p ?_ hnotes
                        show p ∈ (delNode g v).edges
                        have h1 : p.2.src ≠ v := fun hc =>
                          hnotes (hpriv p hp (Or.inl (hc ▸ hvns)))
                        have h2 : p.2.tgt ≠ v := fun hc =>
                          hnotes (hpriv p hp (Or.inr (hc ▸ hvns)))
                        unfold delNode
                        simp only [List.mem_filter]
                        exact ⟨hp, by simp [h1, h2]⟩

theorem removeMeta_getElem?_src {α : Type} {comps : List α} {id k : Nat} {x : α}
    (hid : id < comps.length) (h : (removeMeta comps id)[k]? = some x) :
    k < comps.length - 1 ∧
    comps[(if k = id then comps.length - 1 else k)]? = some x := by
  have hk : k < comps.length - 1 := by
    have h0 := (List.getElem?_eq_some.mp h).1
    rw [removeMeta_length hid] at h0
    exact h0
  refine ⟨hk, ?_⟩
  by_cases hkid : k = id
  · subst hkid
    rw [if_pos rfl]
    have hid1 : k + 1 < comps.length := by omega
    rw [removeMeta_getElem?_at hid1] at h
    rw [← h, List.getLast?_eq_getElem?]
  · rw [if_neg hkid, ← removeMeta_getElem?_ne hk hkid]
    exact h

theorem remove_preserves_inv {T E : Type} {s s' : Store T E} {id fuel : Nat}
    (h : remove s id fuel = some s') (hinv : StoreInv s) : StoreInv s' := by
  obtain ⟨⟨hG1, hG2, hG3, hG4, hG5⟩, own, hlen, hdisj, hpc⟩ := hinv
  unfold remove at h
  cases hmd : s.components.get? id with
  | none =>
      rw [hmd] at h
      simp at h
  | some md =>
      simp only [hmd] at h
      cases hst : md.start with
      | none => simp [hst] at h
      | some a =>
          simp only [hst, Option.map_eq_some'] at h
          obtain ⟨g', hg', hs'⟩ := h
          have hidlt : id < s.components.length := by
            have := List.get?_eq_some.mp hmd
            exact this.1
          have hmd' : s.components[id]? = some md := by
            rw [← List.get?_eq_getElem?]
            exact hmd
          have hidown : id < own.length := by omega
          obtain ⟨oI, hoI⟩ : ∃ oI, own[id]? = some oI :=
            ⟨own[id], List.getElem?_eq_some.mpr ⟨hidown, rfl⟩⟩
          obtain ⟨⟨a0, ed, ha0, hmem, hfe, htcend⟩, hb, hc, hd⟩ := hpc id md oI hmd' hoI
          rw [hst] at ha0
          rcases Option.some_inj.mp ha0 with rfl
          have hedmem : (a.edgeId, ed) ∈ s.graph.edges := mem_of_findE hfe
          have hdel1 : (delEdge s.graph a.edgeId).edges.Sublist s.graph.edges :=
            List.filter_sublist _
          have hkeep : ∀ p ∈ s.graph.edges, p.1 ∉ oI.es →
              p ∈ (delEdge s.graph a.edgeId).edges := by
            intro p hp hne
            unfold delEdge
            simp only [List.mem_filter]
            refine ⟨hp, ?_⟩
            have : p.1 ≠ a.edgeId := fun hc0 => hne (hc0 ▸ hmem)
            simp [this]
          have hmain : g'.edges.Sublist s.graph.edges ∧
              g'.nextNode = s.graph.nextNode ∧ g'.nextEdge = s.graph.nextEdge ∧
              (∀ p ∈ s.graph.edges, p.1 ∉ oI.es → p ∈ g'.edges) := by
            by_cases h2 : md.terminals.length = 2
            · rw [if_pos h2] at hg'
              rcases Option.some_inj.mp hg' with rfl
              exact ⟨hdel1, rfl, rfl, hkeep⟩
            · rw [if_neg h2] at hg'
              cases htw : twinNodeOf s.graph.edges a with
              | none =>
                  rw [htw] at hg'
                  simp at hg'
              | some v0 =>
                  simp only [htw] at hg'
                  by_cases hcap : 2 * md.terminals.length - 3 < 1
                  · rw [if_pos hcap] at hg'
                    simp at hg'
                  · rw [if_neg hcap] at hg'
                    have hv0 : v0 ∈ oI.ns ∨
                        TermCopyF s.inst.isTerminal s.nodeOrig v0 := by
                      obtain ⟨ed', hfe', hsrc', htgt'⟩ := hb a.edgeId hmem
                      rw [hfe] at hfe'
                      rcases Option.some_inj.mp hfe' with rfl
                      have htw2 := twinNodeOf_eq hG4 hedmem
                      rw [htw] at htw2
                      have hv0eq := Option.some_inj.mp htw2
                      cases hat : a.atSrc
                      · rw [hat] at hv0eq
                        simp only [if_neg (by simp : ¬(false = true))] at hv0eq
                        rw [hv0eq]
                        exact hsrc'
                      · rw [hat] at hv0eq
                        simp only [if_pos rfl] at hv0eq
                        rw [hv0eq]
                        exact htgt'
                    have hnd1 : ((delEdge s.graph a.edgeId).edges.map Prod.fst).Nodup :=
                      List.Nodup.sublist (hdel1.map _) hG4
                    have hpriv1 : ∀ p ∈ (delEdge s.graph a.edgeId).edges,
                        (p.2.src ∈ oI.ns ∨ p.2.tgt ∈ oI.ns) → p.1 ∈ oI.es :=
                      fun p hp h0 => hc p (hdel1.subset hp) h0
                    have hend1 : ∀ p ∈ (delEdge s.graph a.edgeId).edges, p.1 ∈ oI.es →
                        (p.2.src ∈ oI.ns ∨ TermCopyF s.inst.isTerminal s.nodeOrig p.2.src) ∧
                        (p.2.tgt ∈ oI.ns ∨ TermCopyF s.inst.isTerminal s.nodeOrig p.2.tgt) := by
                      intro p hp h0
                      obtain ⟨ed2, hfe2, hs2, ht2⟩ := hb p.1 h0
                      have hpm := hdel1.subset hp
                      have := findE_of_mem hG4 (show (p.1, p.2) ∈ s.graph.edges from hpm)
                      rw [hfe2] at this
                      have heq := Option.some_inj.mp this
                      rw [heq] at hs2 ht2
                      exact ⟨hs2, ht2⟩
                    obtain ⟨hA, hB, hC, hD⟩ := removeLoop_frame oI fuel _ g' [v0] hg'
                      (by intro u hu; rcases List.mem_singleton.mp hu with rfl; exact hv0)
                      hnd1 hpriv1 hend1
                    exact ⟨hA.trans hdel1, hB, hC, fun p hp hne => hD p (hkeep p hp hne) hne⟩
          obtain ⟨HS, HN, HE, HV⟩ := hmain
          rw [← hs']
          have hnd' : (g'.edges.map Prod.fst).Nodup := List.Nodup.sublist (HS.map _) hG4
          refine ⟨⟨?_, ?_, ?_, ?_, ?_⟩, removeMeta own id, ?_, ?_, ?_⟩
          · intro x u hx
            obtain ⟨h1, h2, h3⟩ := hG1 x u hx
            exact ⟨h1, h2, by rw [HN]; exact h3⟩
          · exact hG2
          · intro v x hx
            rw [HN]
            exact hG3 v x hx
          · exact hnd'
          · intro p hp
            obtain ⟨h1, h2, h3⟩ := hG5 p (HS.subset hp)
            rw [HN, HE]
            exact ⟨h1, h2, h3⟩
          · show (removeMeta own id).length = (removeMeta s.components id).length
            rw [removeMeta_length hidown, removeMeta_length hidlt, hlen]
          · intro i j oi oj hij hi hj
            obtain ⟨hi1, hi2⟩ := removeMeta_getElem?_src hidown hi
            obtain ⟨hj1, hj2⟩ := removeMeta_getElem?_src hidown hj
            refine hdisj _ _ oi oj ?_ hi2 hj2
            by_cases hiid : i = id
            · subst hiid
              rw [if_pos rfl]
              have hjid : j ≠ i := fun hc0 => hij hc0.symm
              rw [if_neg hjid]
              omega
            · rw [if_neg hiid]
              by_cases hjid : j = id
              · subst hjid
                rw [if_pos rfl]
                omega
              · rw [if_neg hjid]
                exact hij
          · intro k mdk ok hk hok
            obtain ⟨hk1, hk2⟩ := removeMeta_getElem?_src hidlt hk
            obtain ⟨hk1', hok2⟩ := removeMeta_getElem?_src hidown hok
            rw [hlen] at hok2
            have hkid : (if k = id then s.components.length - 1 else k) ≠ id := by
              by_cases hkk : k = id
              · rw [if_pos hkk]
                omega
              · rw [if_neg hkk]
                exact hkk
            obtain ⟨⟨a2, ed2, ha2, hmem2, hfe2, htc2⟩, hb2, hc2, hd2⟩ :=
              hpc _ mdk ok hk2 hok2
            have hdisj2 := hdisj _ id ok oI hkid hok2 hoI
            have hlive : ∀ e ∈ ok.es, ∀ ed3, findE s.graph.edges e = some ed3 →
                findE g'.edges e = some ed3 := by
              intro e he ed3 hfe3
              refine findE_of_mem hnd' ?_
              refine HV (e, ed3) (mem_of_findE hfe3) ?_
              exact Finset.disjoint_left.mp hdisj2.1 he
            refine ⟨⟨a2, ed2, ha2, hmem2, hlive _ hmem2 _ hfe2, htc2⟩, ?_, ?_, hd2⟩
            · intro e he
              obtain ⟨ed3, hfe3, hs3, ht3⟩ := hb2 e he
              exact ⟨ed3, hlive e he ed3 hfe3, hs3, ht3⟩
            · intro p hp h0
              exact hc2 p (HS.subset hp) h0

theorem mkStore_inv {T E : Type} (inst : Instance)
    (hcons : ∀ x, inst.isTerminal x = true ↔ x ∈ inst.terminals) :
    StoreInv (mkStore T E inst) := by
  obtain ⟨k1, k2, k3, k4, k5, k6⟩ := initTerminals_inv inst.isTerminal inst.terminals
    ({} : EWGraph T) (fun _ => none) (fun _ => none)
    (fun x hx => (hcons x).mpr hx)
    (fun x u hx => absurd hx (by simp))
    (fun v x hx => absurd hx (by simp))
  refine ⟨⟨?_, ?_, ?_, ?_, ?_⟩, [], rfl, ?_, ?_⟩
  · exact k1
  · intro x hxt
    exact k3 x ((hcons x).mp hxt)
  · exact k2
  · show ((initTerminals inst.terminals ({} : EWGraph T)
      (fun _ => none) (fun _ => none)).1.edges.map Prod.fst).Nodup
    rw [k5]
    exact List.nodup_nil
  · intro p hp
    have hp2 : p ∈ (initTerminals inst.terminals ({} : EWGraph T)
        (fun _ => none) (fun _ => none)).1.edges := hp
    rw [k5] at hp2
    exact absurd hp2 (by simp)
  · intro i j oi oj _ hi _
    exact absurd hi (by simp)
  · intro i md o _ ho
    exact absurd ho (by simp)

theorem storeInv_of_reachable {T E : Type} [Zero T] [Add T] (inst : Instance)
    (hcons : ∀ x, inst.isTerminal x = true ↔ x ∈ inst.terminals) (s : Store T E)
    (hreach : ReachableP T E inst (fun τ => ∃ e ∈ τ.edges,
      inst.isTerminal e.1 = true ∨ inst.isTerminal e.2.1 = true) s) :
    StoreInv s ∧ s.inst = inst := by
  induction hreach with
  | init => exact ⟨mkStore_inv inst hcons, rfl⟩
  | ins hr hP hins ih =>
      obtain ⟨-, out, -, hs'⟩ := insert_destruct hins
      refine ⟨insert_preserves_inv hins (by rw [ih.2]; exact hP) ih.1, ?_⟩
      rw [hs']
      exact ih.2
  | rem hr hrem ih =>
      exact ⟨remove_preserves_inv hrem ih.1, (remove_graph_only hrem).1.trans ih.2⟩

/-- Claim C10: after any sequence of successful `insert` and `remove` calls on
well-formed inputs (instance flags consistent with the terminal list, every
inserted tree containing at least one terminal-incident edge), every stored
component's start handle is non-null, sits on a live edge of the compact
graph, and the node it sits on is a compact terminal node: its original node
exists and is a terminal.  The depth-first walk of `foreachAdjEntry` depends
on this invariant, since it only continues past non-terminal nodes. -/
theorem start_on_terminal_invariant {T E : Type} [Zero T] [Add T]
    (inst : Instance) (s : Store T E)
    (hcons : ∀ x, inst.isTerminal x = true ↔ x ∈ inst.terminals)
    (hreach : ReachableP T E inst (fun τ => ∃ e ∈ τ.edges,
      inst.isTerminal e.1 = true ∨ inst.isTerminal e.2.1 = true) s)
    (i : Nat) (md : Metadata T E) (hmd : s.components[i]? = some md) :
    ∃ a vT t, md.start = some a ∧ theNodeOf s.graph.edges a = some vT ∧
      s.nodeOrig vT = some t ∧ inst.isTerminal t = true := by
  obtain ⟨⟨-, -, -, -, -⟩, own, hlen, -, hpc⟩ :=
    (storeInv_of_reachable inst hcons s hreach).1
  have hinst := (storeInv_of_reachable inst hcons s hreach).2
  have hi : i < own.length := by
    rw [hlen]
    exact (List.getElem?_eq_some.mp hmd).1
  obtain ⟨o, ho⟩ : ∃ o, own[i]? = some o := ⟨own[i], List.getElem?_eq_some.mpr ⟨hi, rfl⟩⟩
  obtain ⟨⟨a, ed, ha, hmem, hfe, t, ht1, ht2⟩, -, -, -⟩ := hpc i md o hmd ho
  refine ⟨a, if a.atSrc then ed.src else ed.tgt, t, ha, ?_, ht1, by rw [← hinst]; exact ht2⟩
  unfold theNodeOf
  rw [hfe]
  rfl

theorem start_on_terminal_invariant_witness :
    ∃ a vT t, (⟨some ⟨0, true⟩, [0, 1], 9, ()⟩ : Metadata Nat Unit).start = some a ∧
      theNodeOf wS1.graph.edges a = some vT ∧
      wS1.nodeOrig vT = some t ∧ wInst.isTerminal t = true :=
  start_on_terminal_invariant wInst wS1
    (by intro x; simp [wInst]; omega)
    (ReachableP.ins ReachableP.init
      ⟨(0, 1, 9), by decide, Or.inl (by decide)⟩
      (show insert (mkStore Nat Unit wInst) () ⟨[0, 1], [(0, 1, 9)]⟩ = some wS1 by
        with_unfolding_all rfl))
    0 ⟨some ⟨0, true⟩, [0, 1], 9, ()⟩ (by with_unfolding_all rfl)

/-! ## Coverage-certified skeleton walks: the cost/traversal link of C2 -/

/-- A coverage-certified run of the `foreachAdjEntry` DFS over the component
edge set `F`: like `AW`, but every popped handle's edge must belong to `F`
and the walk may only finish once all of `F` has been visited.  A derivation
therefore certifies, beyond termination, that the walk reports exactly the
edges of `F`, each once — the well-formedness invariant of a stored
component's skeleton. -/
inductive AWC {T : Type} (isT : Nat → Bool) (no : Nat → Option Nat)
    (es : List (Nat × EWEdge T)) (F : Finset Nat) :
    Finset Nat → List (AdjEntry × Nat) → List AdjEntry → Prop
  | nil (V : Finset Nat) : F ⊆ V → AWC isT no es F V [] []
  | popTerm {V : Finset Nat} {a : AdjEntry} {stk : List (AdjEntry × Nat)}
      {backs : List AdjEntry} {wn wO : Nat} :
      a.edgeId ∉ V → a.edgeId ∈ F →
      theNodeOf es a.twin = some wn → no wn = some wO → isT wO = true →
      AWC isT no es F (Insert.insert a.edgeId V) stk backs →
      AWC isT no es F V ((a, 1) :: stk) (a.twin :: backs)
  | popSteiner {V : Finset Nat} {a : AdjEntry} {stk : List (AdjEntry × Nat)}
      {backs : List AdjEntry} {wn wO : Nat} {pushed : List AdjEntry} (ts : List Nat) :
      a.edgeId ∉ V → a.edgeId ∈ F →
      theNodeOf es a.twin = some wn → no wn = some wO → isT wO = false →
      rotateAfter (adjList es wn) a.twin = some pushed →
      2 ≤ pushed.length →
      ts.length = pushed.length →
      AWC isT no es F (Insert.insert a.edgeId V) (pushed.reverse.zip ts ++ stk) backs →
      AWC isT no es F V ((a, ts.sum) :: stk) (a.twin :: backs)

theorem AWC_to_AW {T : Type} {isT : Nat → Bool} {no : Nat → Option Nat}
    {es : List (Nat × EWEdge T)} {F V : Finset Nat} {stk : List (AdjEntry × Nat)}
    {backs : List AdjEntry} (h : AWC isT no es F V stk backs) :
    AW isT no es V stk backs := by
  induction h with
  | nil V hFV => exact AW.nil V
  | popTerm h1 h2 h3 h4 h5 hsub ih => exact AW.popTerm h1 h3 h4 h5 ih
  | popSteiner ts h1 h2 h3 h4 h5 h6 h7 h8 hsub ih =>
      exact AW.popSteiner ts h1 h3 h4 h5 h6 h7 h8 ih

theorem AWC_backs_mem {T : Type} {isT : Nat → Bool} {no : Nat → Option Nat}
    {es : List (Nat × EWEdge T)} {F V : Finset Nat} {stk : List (AdjEntry × Nat)}
    {backs : List AdjEntry} (h : AWC isT no es F V stk backs) :
    ∀ b ∈ backs, b.edgeId ∈ F := by
  induction h with
  | nil V hFV => intro b hb; simp at hb
  | popTerm h1 h2 h3 h4 h5 hsub ih =>
      intro b hb
      rcases List.mem_cons.mp hb with rfl | hb
      · rw [AdjEntry.twin_edgeId]
        exact h2
      · exact ih b hb
  | popSteiner ts h1 h2 h3 h4 h5 h6 h7 h8 hsub ih =>
      intro b hb
      rcases List.mem_cons.mp hb with rfl | hb
      · rw [AdjEntry.twin_edgeId]
        exact h2
      · exact ih b hb

theorem AWC_covers {T : Type} {isT : Nat → Bool} {no : Nat → Option Nat}
    {es : List (Nat × EWEdge T)} {F V : Finset Nat} {stk : List (AdjEntry × Nat)}
    {backs : List AdjEntry} (h : AWC isT no es F V stk backs) :
    ∀ e ∈ F, e ∈ V ∨ e ∈ backs.map (fun a => a.edgeId) := by
  induction h with
  | nil V hFV => intro e he; exact Or.inl (hFV he)
  | popTerm h1 h2 h3 h4 h5 hsub ih =>
      rename_i V2 a2 stk2 backs2 wn2 wO2
      intro e he
      rcases ih e he with h0 | h0
      · rcases Finset.mem_insert.mp h0 with rfl | h0
        · right
          rw [List.map_cons, AdjEntry.twin_edgeId]
          exact List.mem_cons_self _ _
        · exact Or.inl h0
      · right
        rw [List.map_cons]
        exact List.mem_cons_of_mem _ h0
  | popSteiner ts h1 h2 h3 h4 h5 h6 h7 h8 hsub ih =>
      rename_i V2 a2 stk2 backs2 wn2 wO2 pushed2
      intro e he
      rcases ih e he with h0 | h0
      · rcases Finset.mem_insert.mp h0 with rfl | h0
        · right
          rw [List.map_cons, AdjEntry.twin_edgeId]
          exact List.mem_cons_self _ _
        · exact Or.inl h0
      · right
        rw [List.map_cons]
        exact List.mem_cons_of_mem _ h0

theorem perm_of_nodup_mem_iff {l1 l2 : List Nat} (h1 : l1.Nodup) (h2 : l2.Nodup)
    (h : ∀ e, e ∈ l1 ↔ e ∈ l2) : l1.Perm l2 :=
  (List.subperm_of_subset h1 (fun e he => (h e).mp he)).antisymm
    (List.subperm_of_subset h2 (fun e he => (h e).mpr he))

theorem foldl_add_eq_sum {T : Type} [AddMonoid T] {α : Type} (f : α → T) :
    ∀ (l : List α) (c : T), l.foldl (fun acc e => acc + f e) c = c + (l.map f).sum := by
  intro l
  induction l with
  | nil => intro c; simp
  | cons x rest ih =>
      intro c
      simp only [List.foldl_cons, List.map_cons, List.sum_cons]
      rw [ih, add_assoc]

/-- The visit sequence a well-formed stored component with skeleton edge set
`F` prescribes: for a 2-terminal component the single twin of the start
handle whose edge is all of `F`, otherwise a coverage-certified DFS run from
the start handle that reports exactly the edges of `F`. -/
def CoveringWalk {T E : Type} (isT : Nat → Bool) (no : Nat → Option Nat)
    (es : List (Nat × EWEdge T)) (F : Finset Nat) (md : Metadata T E)
    (backs : List AdjEntry) : Prop :=
  ∃ st, md.start = some st ∧
    ((md.terminals.length = 2 ∧ backs = [st.twin] ∧ F = {st.edgeId}) ∨
     (3 ≤ md.terminals.length ∧
       AWC isT no es F ∅ [(st, md.terminals.length - 1)] backs))

/-- Claim C2: for a component stored by `insert` (every stored record arises
this way; its dense id is the pre-call size) whose skeleton is well formed —
certified by a covering walk over the component's edge-id set, the interval
of ids `insert` allocated — `foreachAdjEntry` succeeds, reports each of the
component's skeleton edges exactly once (the reported edge ids are a
permutation of the ids `insert` created, with no duplicates), and the sum of
the weights of the reported edges equals `cost(id)`, the cost `insert`
accumulated while copying the tree's edges. -/
theorem cost_eq_foreachAdjEntry_weight_sum {T E : Type} [AddCommMonoid T]
    (s s' : Store T E) (d : E) (τ : CompTree T) (backs : List AdjEntry)
    (md : Metadata T E)
    (hins : insert s d τ = some s')
    (hnd : (s.graph.edges.map Prod.fst).Nodup)
    (hfresh : ∀ p ∈ s.graph.edges, p.1 < s.graph.nextEdge)
    (hmd : s'.components.getLast? = some md)
    (hwalk : CoveringWalk s'.inst.isTerminal s'.nodeOrig s'.graph.edges
      (Finset.Ico s.graph.nextEdge (s.graph.nextEdge + τ.edges.length)) md backs) :
    ∀ fuel, backs.length ≤ fuel →
      foreachAdjEntryVisits s' ((s.components.length : Nat) : Int) fuel = some backs ∧
      (backs.map (fun a => a.edgeId)).Nodup ∧
      (backs.map (fun a => a.edgeId)).Perm
        ((List.range τ.edges.length).map (fun k => s.graph.nextEdge + k)) ∧
      (backs.map (weightOf s'.graph.edges)).sum = md.cost := by
  intro fuel hfuel
  obtain ⟨-, out, haddE, hs'⟩ := insert_destruct hins
  obtain ⟨hE1, hE2, hE3, ⟨newEs, hes, hnewlen, hdet0⟩, hcost, hst0⟩ :=
    addEdges_spec _ _ _ _ _ _ _ haddE
  have hRg := addNodes_graph τ.nodes s.graph s.nodeCopy s.nodeOrig [] []
  rw [hRg.2] at hdet0
  rw [hRg.1] at hes
  set base := s.graph.nextEdge with hbase
  set len := τ.edges.length with hlenE
  have hedges : s'.graph.edges = s.graph.edges ++ newEs := by
    rw [hs']
    exact hes
  have hmdEq : (⟨out.2.2,
      ((addNodes τ.nodes s.graph s.nodeCopy s.nodeOrig [] []).2.2.2.2).insertionSort
        (· ≤ ·), out.2.1, d⟩ : Metadata T E) = md := by
    rw [hs', List.getLast?_concat] at hmd
    exact Option.some_inj.mp hmd
  have hdet1 : ∀ i, i < len → ∃ ed, newEs[i]? = some (base + i, ed) := by
    intro i hi
    obtain ⟨u, v, w, uC, vC, _, _, _, hn⟩ := hdet0 i hi
    exact ⟨⟨uC, vC, w⟩, hn⟩
  have hmapfst : newEs.map Prod.fst = (List.range len).map (fun i => base + i) :=
    newEs_fst hnewlen hdet1
  have hnewid : ∀ p ∈ newEs, base ≤ p.1 ∧ p.1 < base + len := by
    intro p hp
    exact mem_shift_range.mp (hmapfst ▸ List.mem_map.mpr ⟨p, hp, rfl⟩)
  have hnodupnew : (newEs.map Prod.fst).Nodup := by
    rw [hmapfst]
    exact nodup_shift_range base len
  have hwt : ∀ p ∈ newEs, edgeWeight s'.graph.edges p.1 = p.2.w := by
    intro p hp
    unfold edgeWeight
    rw [hedges, findE_append, findE_eq_none (fun q hq => by
      have h1 := hfresh q hq
      have h2 := (hnewid p hp).1
      omega)]
    show ((findE newEs p.1).map (·.w)).getD 0 = _
    rw [findE_of_mem hnodupnew (show (p.1, p.2) ∈ newEs from hp)]
    rfl
  have hLsum : ((List.range len).map (fun i => base + i)).map
      (edgeWeight s'.graph.edges) = newEs.map (fun p => p.2.w) := by
    rw [← hmapfst, List.map_map]
    exact List.map_congr_left (fun p hp => hwt p hp)
  have hws : newEs.map (fun p => p.2.w) = τ.edges.map (fun e => e.2.2) := by
    apply List.ext_getElem?
    intro i
    by_cases hi : i < len
    · obtain ⟨u, v, w, uC, vC, hτ, hu, hv, hn⟩ := hdet0 i hi
      rw [List.getElem?_map, List.getElem?_map, hτ, hn]
      rfl
    · rw [List.getElem?_map, List.getElem?_map,
        List.getElem?_eq_none (show newEs.length ≤ i by rw [hnewlen]; omega),
        List.getElem?_eq_none (show τ.edges.length ≤ i by omega)]
      rfl
  have hcostsum : md.cost = (τ.edges.map (fun e => e.2.2)).sum := by
    rw [← hmdEq]
    show out.2.1 = _
    rw [hcost, foldl_add_eq_sum (fun e => e.2.2) τ.edges 0, zero_add]
  have hskel : SkeletonWalk s'.inst.isTerminal s'.nodeOrig s'.graph.edges md backs := by
    obtain ⟨st, hst, hcase⟩ := hwalk
    refine ⟨st, hst, ?_⟩
    rcases hcase with ⟨h2, hb, hF⟩ | ⟨h3, hA⟩
    · exact Or.inl ⟨h2, hb⟩
    · exact Or.inr ⟨h3, AWC_to_AW hA⟩
  have hlens : s'.components.length = s.components.length + 1 := by
    rw [hs']
    simp
  have hget : s'.components.get? s.components.length = some md := by
    rw [hs', List.get?_eq_getElem?, List.getElem?_append,
      if_neg (Nat.lt_irrefl _), Nat.sub_self, hmdEq]
    rfl
  have hnodup : (backs.map (fun a => a.edgeId)).Nodup := by
    obtain ⟨st, hst, hcase⟩ := hskel
    rcases hcase with ⟨h2, rfl⟩ | ⟨h3, hw⟩
    · simp
    · exact (AW_backs_nodup hw).1
  have hperm : (backs.map (fun a => a.edgeId)).Perm
      ((List.range len).map (fun k => base + k)) := by
    refine perm_of_nodup_mem_iff hnodup (nodup_shift_range base len) ?_
    obtain ⟨st, hst, hcase⟩ := hwalk
    rcases hcase with ⟨h2, hb, hF⟩ | ⟨h3, hA⟩
    · intro e
      rw [hb]
      constructor
      · intro he
        simp only [List.map_cons, List.map_nil, AdjEntry.twin_edgeId] at he
        rcases List.mem_singleton.mp he with rfl
        have : st.edgeId ∈ Finset.Ico base (base + len) := by
          rw [hF]
          exact Finset.mem_singleton_self _
        have := Finset.mem_Ico.mp this
        exact mem_shift_range.mpr this
      · intro he
        have hbd := mem_shift_range.mp he
        have : e ∈ Finset.Ico base (base + len) := Finset.mem_Ico.mpr hbd
        rw [hF] at this
        rcases Finset.mem_singleton.mp this with rfl
        simp [AdjEntry.twin_edgeId]
    · intro e
      constructor
      · intro he
        obtain ⟨b, hbmem, rfl⟩ := List.mem_map.mp he
        have := AWC_backs_mem hA b hbmem
        exact mem_shift_range.mpr (Finset.mem_Ico.mp this)
      · intro he
        have hbd := mem_shift_range.mp he
        rcases AWC_covers hA e (Finset.mem_Ico.mpr hbd) with h0 | h0
        · exact absurd h0 (Finset.not_mem_empty e)
        · exact h0
  refine ⟨?_, hnodup, hperm, ?_⟩
  · rw [foreachAdjEntryVisits, if_pos ⟨by omega, by
      show ((s.components.length : Nat) : Int) < size s'
      unfold size
      rw [hlens]
      push_cast
      omega⟩]
    rw [Int.toNat_natCast]
    exact foreachAdjEntryCore_eq_backs s' s.components.length md backs hget hskel fuel hfuel
  · have h1 : backs.map (weightOf s'.graph.edges) =
        (backs.map (fun a => a.edgeId)).map (edgeWeight s'.graph.edges) := by
      rw [List.map_map]
      exact List.map_congr_left (fun a _ => weightOf_eq_edgeWeight _ a)
    rw [h1, (hperm.map (edgeWeight s'.graph.edges)).sum_eq, hLsum, hws, hcostsum]

/-- The instance of the 3-terminal star witness: terminals 0, 1, 2. -/
def wInst3 : Instance := ⟨[0, 1, 2], fun n => n ≤ 2⟩

/-- The freshly constructed store over `wInst3`. -/
def wStar0 : Store Nat Unit := mkStore Nat Unit wInst3

/-- The input tree of the star witness: original Steiner node 7 joined to the
three terminals with weights 2, 3, 4. -/
def wTreeStar : CompTree Nat := ⟨[0, 1, 2, 7], [(0, 7, 2), (7, 1, 3), (7, 2, 4)]⟩

/-- The store `insert wStar0 () wTreeStar` produces: the Steiner node becomes
compact node 3, the three edges get ids 0, 1, 2, and the start handle sits on
the last terminal-incident edge. -/
def wStarIns : Store Nat Unit :=
  { inst := wInst3,
    graph := { nextNode := 4, nodes := [0, 1, 2, 3], nextEdge := 3,
               edges := [(0, ⟨0, 3, 2⟩), (1, ⟨3, 1, 3⟩), (2, ⟨3, 2, 4⟩)] },
    nodeCopy := cleanup
      (addNodes wTreeStar.nodes wStar0.graph wStar0.nodeCopy wStar0.nodeOrig [] []).2.1
      (addNodes wTreeStar.nodes wStar0.graph wStar0.nodeCopy wStar0.nodeOrig [] []).2.2.2.1,
    nodeOrig :=
      (addNodes wTreeStar.nodes wStar0.graph wStar0.nodeCopy wStar0.nodeOrig [] []).2.2.1,
    components := [⟨some ⟨2, false⟩, [0, 1, 2], 9, ()⟩] }

theorem cost_eq_foreachAdjEntry_weight_sum_witness :
    foreachAdjEntryVisits wStarIns ((wStar0.components.length : Nat) : Int) 3 =
      some [⟨2, true⟩, ⟨1, false⟩, ⟨0, true⟩] ∧
    (([⟨2, true⟩, ⟨1, false⟩, ⟨0, true⟩] : List AdjEntry).map (fun a => a.edgeId)).Nodup ∧
    (([⟨2, true⟩, ⟨1, false⟩, ⟨0, true⟩] : List AdjEntry).map (fun a => a.edgeId)).Perm
      ((List.range wTreeStar.edges.length).map (fun k => wStar0.graph.nextEdge + k)) ∧
    (([⟨2, true⟩, ⟨1, false⟩, ⟨0, true⟩] : List AdjEntry).map
        (weightOf wStarIns.graph.edges)).sum =
      (⟨some ⟨2, false⟩, [0, 1, 2], 9, ()⟩ : Metadata Nat Unit).cost :=
  cost_eq_foreachAdjEntry_weight_sum wStar0 wStarIns () wTreeStar
    [⟨2, true⟩, ⟨1, false⟩, ⟨0, true⟩] ⟨some ⟨2, false⟩, [0, 1, 2], 9, ()⟩
    (show insert wStar0 () wTreeStar = some wStarIns from by with_unfolding_all rfl)
    (by with_unfolding_all decide)
    (by with_unfolding_all decide)
    (show wStarIns.components.getLast? = some _ from rfl)
    ⟨⟨2, false⟩, rfl, Or.inr ⟨by decide,
      AWC.popSteiner [1, 1] (by decide) (by with_unfolding_all decide)
        (show theNodeOf wStarIns.graph.edges (⟨2, true⟩ : AdjEntry) = some 3 from by
          with_unfolding_all rfl)
        (show wStarIns.nodeOrig 3 = some 7 from by with_unfolding_all rfl)
        (show wStarIns.inst.isTerminal 7 = false from by with_unfolding_all rfl)
        (show rotateAfter (adjList wStarIns.graph.edges 3) (⟨2, true⟩ : AdjEntry) =
            some [⟨0, false⟩, ⟨1, true⟩] from by with_unfolding_all rfl)
        (by decide) rfl
        (AWC.popTerm (by decide) (by with_unfolding_all decide)
          (show theNodeOf wStarIns.graph.edges (⟨1, false⟩ : AdjEntry) = some 1 from by
            with_unfolding_all rfl)
          (show wStarIns.nodeOrig 1 = some 1 from by with_unfolding_all rfl)
          (show wStarIns.inst.isTerminal 1 = true from by with_unfolding_all rfl)
          (AWC.popTerm (by decide) (by with_unfolding_all decide)
            (show theNodeOf wStarIns.graph.edges (⟨0, true⟩ : AdjEntry) = some 0 from by
              with_unfolding_all rfl)
            (show wStarIns.nodeOrig 0 = some 0 from by with_unfolding_all rfl)
            (show wStarIns.inst.isTerminal 0 = true from by with_unfolding_all rfl)
            (AWC.nil _ (by with_unfolding_all decide))))⟩⟩
    3 (by decide)
